import Mathlib

/-!
Loop2Cilk: induction-variable canonicalisation and trip counts.

A shallow embedding of `lib/Transforms/Utils/Loop2Cilk.cpp`.

SSA values are expression trees.  All integer values of one loop have the
type of the primary induction PHI, an integer of `w` bits; a machine integer
is an `Int` reduced modulo `2 ^ w`.  Two values are the same SSA value when
they are structurally equal.
-/

namespace Loop2Cilk

/-! ## Machine integers -/

/-- Unsigned representative of an integer in `w` bits. -/
def wrap (w : Nat) (x : Int) : Int := x % 2 ^ w

/-- Signed reading of the low `w` bits of `x` (`ConstantInt::getSExtValue`). -/
def toSigned (w : Nat) (x : Int) : Int :=
  if 2 * (x % 2 ^ w) < 2 ^ w then x % 2 ^ w else x % 2 ^ w - 2 ^ w

/-! ## Values -/

/-- SSA values.  `const c` is a `ConstantInt` with signed value `c`; `arg n` an
`Argument`; `phi n` the `n`-th PHI node of the loop header; `call n` an
instruction with side effects; `load n` a side-effect-free instruction that is
not a binary operator; the other constructors are `BinaryOperator`s
(`CreateNeg x` is `sub 0, x`). -/
inductive Value where
  | const (c : Int)
  | arg (n : Nat)
  | phi (n : Nat)
  | call (n : Nat)
  | load (n : Nat)
  | add (a b : Value)
  | sub (a b : Value)
  | mul (a b : Value)
  | sdiv (a b : Value)
  deriving DecidableEq, Repr

/-- Values of the leaves of an expression: arguments, header PHIs, and the
results of calls and loads. -/
structure Env where
  arg : Nat → Int
  phi : Nat → Int
  call : Nat → Int
  load : Nat → Int

/-- Value of an expression in `w` bits.  `sdiv` divides the signed readings and
truncates towards zero; division by zero, undefined in the IR, reads 0. -/
def eval (w : Nat) (env : Env) : Value → Int
  | .const c => wrap w c
  | .arg n => wrap w (env.arg n)
  | .phi n => wrap w (env.phi n)
  | .call n => wrap w (env.call n)
  | .load n => wrap w (env.load n)
  | .add a b => wrap w (eval w env a + eval w env b)
  | .sub a b => wrap w (eval w env a - eval w env b)
  | .mul a b => wrap w (eval w env a * eval w env b)
  | .sdiv a b => wrap w (Int.tdiv (toSigned w (eval w env a)) (toSigned w (eval w env b)))

/-- The constant `ConstantInt::get(type, c)`. -/
def constInt (w : Nat) (c : Int) : Value := .const (toSigned w c)

/-! ## IRBuilder with constant folding -/

/-- `IRBuilder::CreateAdd`: folds two constants. -/
def createAdd (w : Nat) : Value → Value → Value
  | .const a, .const b => constInt w (a + b)
  | a, b => .add a b

/-- `IRBuilder::CreateSub`: folds two constants. -/
def createSub (w : Nat) : Value → Value → Value
  | .const a, .const b => constInt w (a - b)
  | a, b => .sub a b

/-- `IRBuilder::CreateMul`: folds two constants. -/
def createMul (w : Nat) : Value → Value → Value
  | .const a, .const b => constInt w (a * b)
  | a, b => .mul a b

/-- `IRBuilder::CreateSDiv`: folds two constants unless the quotient is
undefined (zero divisor, or the minimum divided by -1). -/
def createSDiv (w : Nat) : Value → Value → Value
  | .const a, .const b =>
    if toSigned w b = 0 ∨ (toSigned w b = -1 ∧ toSigned w a = toSigned w (2 ^ (w - 1))) then
      .sdiv (.const a) (.const b)
    else constInt w (Int.tdiv (toSigned w a) (toSigned w b))
  | a, b => .sdiv a b

/-- `IRBuilder::CreateNeg`: `0 - v`, folded on a constant. -/
def createNeg (w : Nat) : Value → Value
  | .const a => constInt w (-a)
  | a => .sub (.const 0) a

/-- `IRBuilder::CreateSExtOrTrunc` to the type the value already has. -/
def createSExtOrTrunc (v : Value) : Value := v

/-- `IRBuilder::CreateTrunc` to the type the value already has. -/
def createTrunc (v : Value) : Value := v

/-- `IRBuilder::CreateSExt` to the type the value already has. -/
def createSExt (v : Value) : Value := v

/-- `IRBuilder::CreateZExt` to the type the value already has. -/
def createZExt (v : Value) : Value := v

/-! ## Helpers of the pass -/

/-- `neg` (source lines 101-121). -/
def neg (w : Nat) : Value → Value
  | .const c => constInt w (-c)
  | v => .sub (.const 0) v

/-- `subOne` (source lines 123-142). -/
def subOne (w : Nat) : Value → Value
  | .const c => constInt w (c - toSigned w 1)
  | v => .sub v (constInt w 1)

/-- `addOne` (source lines 144-164). -/
def addOne (w : Nat) : Value → Value
  | .const c => constInt w (c + toSigned w 1)
  | v => .add v (constInt w 1)

/-- `uncast` (source lines 166-177): no value of the model is a cast. -/
def uncast (v : Value) : Value := v

/-- `getInt` (source lines 186-193): the signed value and the `failed` flag. -/
def getInt : Value → Int × Bool
  | .const c => (c, false)
  | _ => (-1, true)

/-- `isOne` (source lines 195-198). -/
def isOne (v : Value) : Bool := (getInt v).1 == 1

/-- `isZero` (source lines 200-203). -/
def isZero (v : Value) : Bool := (getInt v).1 == 0

/-! ## Comparisons -/

/-- Predicates of `CmpInst`; `fcmp p` is the floating-point predicate number `p`. -/
inductive Predicate where
  | eq | ne | ugt | uge | ult | ule | sgt | sge | slt | sle
  | fcmp (p : Nat)
  deriving DecidableEq, Repr

/-- `CmpInst::getInversePredicate`. -/
def Predicate.inverse : Predicate → Predicate
  | .eq => .ne | .ne => .eq
  | .ugt => .ule | .uge => .ult | .ult => .uge | .ule => .ugt
  | .sgt => .sle | .sge => .slt | .slt => .sge | .sle => .sgt
  | .fcmp p => .fcmp (15 - p)

/-- `CmpInst::isIntPredicate`. -/
def Predicate.isIntPredicate : Predicate → Bool
  | .fcmp _ => false
  | _ => true

/-- A comparison instruction: predicate and two operands. -/
structure CmpInst where
  pred : Predicate
  op0 : Value
  op1 : Value
  deriving DecidableEq, Repr

/-- `getOperand(i)`; the index read is 0 or 1. -/
def CmpInst.getOperand (c : CmpInst) (i : Int) : Value :=
  if i = 0 then c.op0 else c.op1

/-- `setOperand(i, v)`; the index written is 0 or 1. -/
def CmpInst.setOperand (c : CmpInst) (i : Int) (v : Value) : CmpInst :=
  if i = 0 then { c with op0 := v } else { c with op1 := v }

/-! ## Trip count (getIndVar, source lines 563-650) -/

/-- Direction of the exit predicate (source lines 592-606). -/
def direction : Predicate → Int
  | .uge | .ugt | .sge | .sgt => -1
  | .ule | .ult | .sle | .slt => 1
  | _ => 0

/-- Strict ordering predicates, for which one is subtracted (source lines 612-625). -/
def isStrict : Predicate → Bool
  | .ugt | .sgt | .ult | .slt => true
  | _ => false

/-- The step after the negation switch (source lines 631-646). -/
def negateStep (w : Nat) (pred : Predicate) (cmpIdx : Int) (amt0 : Value) : Value :=
  match pred with
  | .sle | .ule | .ult | .slt => if cmpIdx = 0 then neg w amt0 else amt0
  | .sge | .uge | .ugt | .sgt => if cmpIdx = 1 then neg w amt0 else amt0
  | _ => amt0

/-- The difference of top and bottom (source lines 592-627): `val` is the
bound cast to the type of the PHI, `bottom0` the bottom before the swap. -/
def tripDiff (w : Nat) (pred : Predicate) (val bottom0 : Value) : Value :=
  let dir := direction pred
  let bottom := if dir < 0 then val else bottom0
  let top := if dir < 0 then bottom0 else val
  let val := if !isZero bottom then createSub w top bottom else val
  if isStrict pred then subOne w val else val

/-- The division by the step and the final increment (source lines 628-650). -/
def tripQuot (w : Nat) (pred : Predicate) (cmpIdx : Int) (val amt0 : Value) : Value :=
  let amt0 := negateStep w pred cmpIdx amt0
  let val := if !isOne amt0 then createSDiv w val amt0 else val
  if pred ≠ .ne then addOne w val else val

/-- The trip-count computation of `getIndVar` (source lines 563-650).
`cmp` is the exit comparison, `cmpIdx` the operand index chosen by the
classification, `rpn` the primary induction PHI, `opc` the compared value (the
PHI or its increment), `adder` the PHI's incoming value and `amt` its step.
Returns the trip-count value and the comparison as left by line 589. -/
def tripCount (w : Nat) (cmp : CmpInst) (cmpIdx : Int) (rpn opc adder amt : Value) :
    Value × CmpInst :=
  let val := createSExtOrTrunc (cmp.getOperand cmpIdx)
  -- cast ladder (lines 568-586): every cast is to the type the value has
  let amt0 := createZExt (createSExt (createTrunc amt))
  let adder := createZExt (createSExt (createTrunc adder))
  let cmp1 := if opc ≠ rpn then cmp.setOperand (1 - cmpIdx) rpn else cmp
  let bottom := if opc ≠ rpn then createAdd w adder amt0 else adder
  (tripQuot w cmp1.pred cmpIdx (tripDiff w cmp1.pred val bottom) amt0, cmp1)

/-! ## Instructions as trees -/

/-- `isa<Instruction>`: constants and arguments are not instructions. -/
def Value.isInstruction : Value → Bool
  | .const _ => false
  | .arg _ => false
  | _ => true

/-- `isa<BinaryOperator>`. -/
def Value.isBinaryOperator : Value → Bool
  | .add _ _ => true
  | .sub _ _ => true
  | .mul _ _ => true
  | .sdiv _ _ => true
  | _ => false

/-- Operands of an instruction, in operand order.  The incoming values of a
header PHI are kept in the loop and are not part of its tree. -/
def Value.operands : Value → List Value
  | .add a b => [a, b]
  | .sub a b => [a, b]
  | .mul a b => [a, b]
  | .sdiv a b => [a, b]
  | _ => []

/-- `Instruction::mayHaveSideEffects`. -/
def Value.mayHaveSideEffects : Value → Bool
  | .call _ => true
  | _ => false

/-- Number of nodes of a value. -/
def Value.size : Value → Nat
  | .add a b => a.size + b.size + 1
  | .sub a b => a.size + b.size + 1
  | .mul a b => a.size + b.size + 1
  | .sdiv a b => a.size + b.size + 1
  | _ => 1

/-- Total size of a work list. -/
def sizeSum : List Value → Nat
  | [] => 0
  | v :: vs => v.size + sizeSum vs

/-- The work-list loop of `recursiveMoveBefore` (source lines 286-306).  The
head of `toMove` is the back of the vector; `dom v` is
`DT.dominates(v, toMoveBefore)` on entry, and an instruction already moved
stands before the anchor.  Returns the result and the instructions moved, the
last one moved first; `none` when the fuel runs out. -/
def recursiveMoveLoop (dom : Value → Bool) :
    Nat → List Value → List Value → Option (Bool × List Value)
  | 0, _, _ => none
  | _ + 1, [], moved => some (true, moved)
  | fuel + 1, b :: rest, moved =>
    if b.isInstruction && !(dom b || moved.contains b) then
      if b.mayHaveSideEffects then some (false, moved)
      else recursiveMoveLoop dom fuel (b.operands.reverse ++ rest) (b :: moved)
    else recursiveMoveLoop dom fuel rest moved

/-- `recursiveMoveBefore` (source lines 273-313); the fuel given to the loop
is enough for it to end (`recursiveMoveLoop_isSome`). -/
def recursiveMoveBefore (dom : Value → Bool) (toMoveVal : Value) : Bool × List Value :=
  if !toMoveVal.isInstruction then (true, [])
  else
    match recursiveMoveLoop dom (sizeSum [toMoveVal] + 1) [toMoveVal] [] with
    | some r => r
    | none => (false, [])

/-- Definitions precede uses in a block: no instruction has an operand that
stands later in the block. -/
def defsBeforeUses : List Value → Bool
  | [] => true
  | i :: rest => rest.all (fun later => !(i.operands.contains later)) && defsBeforeUses rest

/-- `recursiveMoveBefore` with its assertions on the function it leaves
(`assert(!verifyFunction(...))`, source lines 299 and 311).  When an
instruction with side effects is met after others have been moved, the moved
instruction that pushed it stands before the anchor while its operand does not
dominate the anchor, so the function does not verify; when all moves are made,
the function verifies if definitions precede uses among the moved
instructions.  `none` is a failed assertion, otherwise the result. -/
def recursiveMoveChecked (dom : Value → Bool) (toMoveVal : Value) : Option Bool :=
  let h := recursiveMoveBefore dom toMoveVal
  if !h.1 then
    if h.2.isEmpty then some false else none
  else if !defsBeforeUses h.2 then none
  else some true

/-- Every occurrence of `old` becomes `new`: `replaceAllUsesWith`, and likewise
the change of an instruction in place, seen by all its users. -/
def replaceUses (old new : Value) : Value → Value
  | .add a b =>
    if Value.add a b = old then new else .add (replaceUses old new a) (replaceUses old new b)
  | .sub a b =>
    if Value.sub a b = old then new else .sub (replaceUses old new a) (replaceUses old new b)
  | .mul a b =>
    if Value.mul a b = old then new else .mul (replaceUses old new a) (replaceUses old new b)
  | .sdiv a b =>
    if Value.sdiv a b = old then new else .sdiv (replaceUses old new a) (replaceUses old new b)
  | v => if v = old then new else v

/-- As `replaceUses`, in the operands of `v` only: the value itself, when it
is `old`, stays the instruction it was. -/
def replaceInside (old new : Value) : Value → Value
  | .add a b => .add (replaceUses old new a) (replaceUses old new b)
  | .sub a b => .sub (replaceUses old new a) (replaceUses old new b)
  | .mul a b => .mul (replaceUses old new a) (replaceUses old new b)
  | .sdiv a b => .sdiv (replaceUses old new a) (replaceUses old new b)
  | v => v

/-! ## The loop seen by getIndVar -/

/-- A PHI node of the loop header: `init` is its incoming value for the
`Incoming` block and `back` its incoming value for the `Backedge` block;
`Value.phi id` is its value. -/
structure PhiNode where
  id : Nat
  isInt : Bool
  init : Value
  back : Value
  deriving DecidableEq, Repr

/-- Terminator of a block: a conditional `BranchInst` (its condition, when it
is a `CmpInst`, and whether successors 0 and 1 are in the loop), an
unconditional `BranchInst`, or another terminator. -/
inductive Terminator where
  | condBr (cond : Option CmpInst) (succ0InLoop succ1InLoop : Bool)
  | br
  | other
  deriving DecidableEq, Repr

/-- What `getIndVar` reads of a loop, its detacher block and the dominator tree.
`headerPreds` lists, in predecessor order, whether each predecessor of the
header is in the loop; `body` lists instructions of the function other than
the header PHIs and the exit comparison (an instruction is in the function when
it is in `body` or is an operand, at any depth, of a header PHI, of the exit
comparison or of an instruction of `body`); the last five fields answer the
queries on dominance and on the block of an instruction. -/
structure Loop where
  width : Nat
  headerPreds : List Bool
  headerIsDetacher : Bool
  backedgeTerm : Terminator
  detacherPredTerm : Option Terminator
  phis : List PhiNode
  body : List Value
  domPreheader : Value → Bool
  domIval : Value → Value → Bool
  domNewV : Value → Bool
  inCmpBlock : Value → Bool
  inDetacher : Value → Bool

/-- Terminator of `cmpNode` (source lines 338-342): the backedge block when the
header is the detacher, else the unique predecessor of the detacher. -/
def Loop.cmpNodeTerm (L : Loop) : Option Terminator :=
  if L.headerIsDetacher then some L.backedgeTerm else L.detacherPredTerm

/-- Writes the terminator of `cmpNode`. -/
def Loop.setCmpNodeTerm (L : Loop) (t : Terminator) : Loop :=
  if L.headerIsDetacher then { L with backedgeTerm := t }
  else { L with detacherPredTerm := some t }

/-- The exit comparison: the condition of the terminator of `cmpNode`. -/
def Loop.exitCmp (L : Loop) : Option CmpInst :=
  match L.cmpNodeTerm with
  | some (.condBr (some c) _ _) => some c
  | _ => none

/-- The header PHI with the given id. -/
def Loop.findPhi (L : Loop) (id : Nat) : Option PhiNode :=
  L.phis.find? (fun p => p.id == id)

/-- Result of `getIndVar`: the null pair, a failed assertion, or the primary
induction PHI and the trip count. -/
inductive IndVar where
  | null
  | abort
  | pair (rpn : Nat) (tripCount : Value)
  deriving DecidableEq, Repr

/-- The primary induction variable found so far: `RPN`, `INCR`, `amt`, `opc`. -/
structure Piv where
  rpn : Nat
  incr : Value
  amt : Value
  opc : Value
  deriving DecidableEq, Repr

/-- An entry of `others`: a secondary induction PHI, its increment, its step. -/
structure Secondary where
  phi : Nat
  inc : Value
  step : Value
  deriving DecidableEq, Repr

/-- The loop under rewriting and the local variables of `getIndVar`. -/
structure State where
  loop : Loop
  cmp : CmpInst
  cmpIdx : Int
  piv : Option Piv
  others : List Secondary
  toIgnore : List Value
  newV : Option Value

/-- Applies `f` to every operand slot of the loop and `g` to every instruction
held by pointer (roots of the body, local variables). -/
def State.mapValues (st : State) (f g : Value → Value) : State :=
  { loop := { st.loop with
      phis := st.loop.phis.map (fun (p : PhiNode) => { p with init := f p.init, back := f p.back })
      body := st.loop.body.map g }
    cmp := { st.cmp with op0 := f st.cmp.op0, op1 := f st.cmp.op1 }
    cmpIdx := st.cmpIdx
    piv := st.piv.map (fun (p : Piv) => { p with incr := g p.incr, amt := g p.amt, opc := g p.opc })
    others := st.others.map (fun (t : Secondary) => { t with inc := g t.inc, step := g t.step })
    toIgnore := st.toIgnore.map g
    newV := st.newV.map g }

/-- `old->replaceAllUsesWith(new)`: every use changes; `old` itself stays. -/
def State.rauw (st : State) (old new : Value) : State :=
  st.mapValues (replaceUses old new) (replaceInside old new)

/-- An instruction changed in place from `old` to `new`. -/
def State.mutate (st : State) (old new : Value) : State :=
  st.mapValues (replaceUses old new) (replaceUses old new)

/-- `I->eraseFromParent()` for an instruction that is not a header PHI. -/
def State.eraseInst (st : State) (i : Value) : State :=
  { st with loop := { st.loop with body := st.loop.body.filter (fun v => v != i) } }

/-- Incoming value of the header PHI `id` for the `Incoming` block. -/
def State.initOf (st : State) (id : Nat) : Value :=
  match st.loop.findPhi id with
  | some p => p.init
  | none => .const 0

/-- Control flow of one iteration of a loop of `getIndVar`: go on, or return. -/
inductive Flow where
  | next (st : State)
  | ret (st : State) (r : IndVar)

/-- Normalisation of `PN - c` to `PN + (-c)` (source lines 396-409): the state
and the increment afterwards. -/
def normalizeSub (st : State) (pn : Nat) (inc : Value) : State × Value :=
  match inc with
  | .sub a b =>
    if a = .phi pn then
      let val := createNeg st.loop.width b
      let newI := createAdd st.loop.width (.phi pn) val
      let st1 := st.rauw inc newI
      let st2 : State := { st1 with others := st1.others.map (fun (t : Secondary) =>
        { t with inc := if t.inc = inc then newI else t.inc,
                 step := if t.step = inc then newI else t.step }) }
      (st2.eraseInst inc, newI)
    else (st, inc)
  | _ => (st, inc)

/-- Classification of one header PHI whose backedge value is the add `inc`
with the PHI as operand 0 and `step` as operand 1 (source lines 413-430); a
failed assertion of one of the two hoists ends it with `abort`. -/
def recordInduction (st : State) (pn : Nat) (inc step : Value) : Flow :=
  let rpnr0 := decide (uncast st.cmp.op0 = .phi pn)
  let incr0 := decide (uncast st.cmp.op0 = inc)
  let cmpIdx0 := if rpnr0 || incr0 then 0 else st.cmpIdx
  let rpnr := rpnr0 || decide (uncast st.cmp.op1 = .phi pn)
  let incr := incr0 || decide (uncast st.cmp.op1 = inc)
  let cmpIdx := if rpnr || incr then 1 else cmpIdx0
  let st := { st with cmpIdx := cmpIdx }
  if rpnr && incr then .ret st .abort
  else
    let st :=
      if rpnr || incr then
        { st with piv := some ⟨pn, inc, step, if rpnr then .phi pn else inc⟩ }
      else { st with others := st.others ++ [⟨pn, inc, step⟩] }
    match recursiveMoveChecked st.loop.domPreheader step with
    | none => .ret st .abort
    | some false => .ret st .null
    | some true =>
      match recursiveMoveChecked st.loop.domPreheader (st.initOf pn) with
      | none => .ret st .abort
      | some false => .ret st .null
      | some true => .next st

/-- One iteration of the loop over the header PHIs (source lines 388-439). -/
def classifyPhi (st : State) (pn : Nat) : Flow :=
  match st.loop.findPhi pn with
  | none => .next st
  | some p =>
    if !p.isInt then .ret st .null
    else if p.back.isBinaryOperator then
      let (st, inc) := normalizeSub st pn p.back
      match inc with
      | .add a b =>
        if a = .phi pn ∨ b = .phi pn then
          if b = .phi pn then
            recordInduction (st.mutate inc (.add b a)) pn (.add b a) a
          else recordInduction st pn inc b
        else .ret st .null
      | _ => .ret st .null
    else .next st

/-- The loop over the header PHIs (source lines 388-439). -/
def classifyPhis (st : State) : List Nat → Flow
  | [] => .next st
  | pn :: rest =>
    match classifyPhi st pn with
    | .next st1 => classifyPhis st1 rest
    | .ret st1 r => .ret st1 r

/-! ## Uses -/

/-- All instructions below a value, the value included. -/
def subInstructions : Value → List Value
  | .add a b => .add a b :: (subInstructions a ++ subInstructions b)
  | .sub a b => .sub a b :: (subInstructions a ++ subInstructions b)
  | .mul a b => .mul a b :: (subInstructions a ++ subInstructions b)
  | .sdiv a b => .sdiv a b :: (subInstructions a ++ subInstructions b)
  | .const _ => []
  | .arg _ => []
  | v => [v]

/-- The roots of the trees of the function: incoming values of the header
PHIs, operands of the exit comparison, the body, and the instructions the
builder has inserted (all of them in `toIgnore`). -/
def State.roots (st : State) : List Value :=
  st.loop.phis.map (fun p => p.init) ++ st.loop.phis.map (fun p => p.back)
    ++ [st.cmp.op0, st.cmp.op1] ++ st.loop.body ++ st.toIgnore

/-- The instructions of the function, each once. -/
def State.instructions (st : State) : List Value :=
  (st.roots.map subInstructions).flatten.eraseDups

/-- Users of `x` among the header PHIs and the instructions (the exit
comparison apart). -/
def State.users (st : State) (x : Value) : List Value :=
  ((st.loop.phis.filter (fun p => p.init == x || p.back == x)).map (fun p => Value.phi p.id))
    ++ st.instructions.filter (fun i => i.operands.contains x)

/-- `x->getNumUses()`: the operand slots holding `x`. -/
def State.getNumUses (st : State) (x : Value) : Nat :=
  (st.loop.phis.map (fun p => (if p.init = x then 1 else 0) + (if p.back = x then 1 else 0))).sum
    + ((if st.cmp.op0 = x then 1 else 0) + (if st.cmp.op1 = x then 1 else 0))
    + (st.instructions.map (fun i => i.operands.count x)).sum

/-- `PN->eraseFromParent()` for a header PHI. -/
def State.erasePhi (st : State) (id : Nat) : State :=
  { st with loop := { st.loop with phis := st.loop.phis.filter (fun p => p.id != id) } }

/-! ## Secondary induction variables (getIndVar, source lines 460-516) -/

/-- `toIgnore.insert(v)`. -/
def State.ignore (st : State) (v : Value) : State :=
  { st with toIgnore := if st.toIgnore.contains v then st.toIgnore else st.toIgnore ++ [v] }

/-- The values `mul` and `newV` for the primary induction variable (source
lines 463-466), with `toIgnore` updated. -/
def primaryExpr (st : State) (p : Piv) : Value × State :=
  let rpn := Value.phi p.rpn
  let mulSt : Value × State :=
    if isOne p.amt then (rpn, st)
    else (createMul st.loop.width rpn p.amt, st.ignore (createMul st.loop.width rpn p.amt))
  let init := mulSt.2.initOf p.rpn
  if isZero init then mulSt
  else (createAdd st.loop.width mulSt.1 init, mulSt.2.ignore (createAdd st.loop.width mulSt.1 init))

/-- The closed form built for a secondary induction variable (source lines
470-477), with `toIgnore` updated. -/
def secondaryExpr (st : State) (rpn : Value) (a : Secondary) : Value × State :=
  let val := createSExtOrTrunc rpn
  let st := if val ≠ rpn then st.ignore val else st
  let amt0 := a.step
  let val := if !isOne amt0 then createMul st.loop.width val amt0 else val
  let st := if val ≠ rpn then st.ignore val else st
  let add0 := st.initOf a.phi
  let val := if !isZero add0 then createAdd st.loop.width val add0 else val
  let st := if val ≠ rpn then st.ignore val else st
  (val, st)

/-- The erasure of the increment of a rewritten secondary induction variable
(source lines 508-515). -/
def eraseIncrement (st : State) (a : Secondary) : State :=
  if st.getNumUses a.inc = 0 then
    let tmp := a.inc
    let replacable := !(st.others.any (fun tup => tup.inc == tmp || tup.step == tmp))
    if replacable then st.eraseInst tmp else st
  else st

/-- The rewrite of the `i`-th entry of `others` (source lines 469-516).
`attemptRecursiveMove` only moves instructions and its result is used for
diagnostics only; the assertion of line 497 is answered by `domIval`. -/
def rewriteSecondary (st : State) (rpn : Value) (i : Nat) : Flow :=
  match st.others.get? i with
  | none => .next st
  | some a =>
    let (val, st1) := secondaryExpr st rpn a
    if (st1.users (.phi a.phi)).any
        (fun user => user != .phi a.phi && user != a.inc && !st1.loop.domIval val user) then
      .ret st1 .abort
    else
      let st2 := (st1.rauw (.phi a.phi) val).erasePhi a.phi
      match st2.others.get? i with
      | none => .next st2
      | some a2 => .next (eraseIncrement st2 a2)

/-- The loop over `others` (source lines 469-516). -/
def rewriteSecondaries (st : State) (rpn : Value) : List Nat → Flow
  | [] => .next st
  | i :: rest =>
    match rewriteSecondary st rpn i with
    | .next st1 => rewriteSecondaries st1 rpn rest
    | .ret st1 r => .ret st1 r

/-! ## Uses of the primary induction variable (getIndVar, source lines 527-558) -/

/-- What the loop over the uses of `RPN` does with a user. -/
inductive UseAction where
  | setStep
  | keep
  | replace
  deriving DecidableEq, Repr

/-- The branch taken for the user `i` (source lines 533-536).  The exit
comparison itself, the remaining user, is kept (`uncast(I) == cmp`). -/
def useAction (st : State) (p : Piv) (i : Value) : UseAction :=
  if i = p.incr then .setStep
  else if st.toIgnore.contains i && i != .phi p.rpn then .keep
  else if i = st.cmp.op0 || i = st.cmp.op1 || i = .phi p.rpn
      || st.loop.inCmpBlock i || st.loop.inDetacher i then .keep
  else .replace

/-- An operand of a user after the loop over the uses: `a` is the operand on
entry and `a1` the operand with its own operands rewritten. -/
def rewriteOperand (rpn newV a a1 : Value) : Value :=
  if a = rpn then newV else a1

/-- A value after the loop over the uses of `rpn`: each user of `rpn` below it
is changed in place as `act` says, `one` being the new step. -/
def rewriteUses (act : Value → UseAction) (rpn newV one : Value) : Value → Value
  | .add a b =>
    let a1 := rewriteUses act rpn newV one a
    let b1 := rewriteUses act rpn newV one b
    if a = rpn ∨ b = rpn then
      match act (.add a b) with
      | .setStep => .add a1 one
      | .keep => .add a1 b1
      | .replace => .add (rewriteOperand rpn newV a a1) (rewriteOperand rpn newV b b1)
    else .add a1 b1
  | .sub a b =>
    let a1 := rewriteUses act rpn newV one a
    let b1 := rewriteUses act rpn newV one b
    if a = rpn ∨ b = rpn then
      match act (.sub a b) with
      | .setStep => .sub a1 one
      | .keep => .sub a1 b1
      | .replace => .sub (rewriteOperand rpn newV a a1) (rewriteOperand rpn newV b b1)
    else .sub a1 b1
  | .mul a b =>
    let a1 := rewriteUses act rpn newV one a
    let b1 := rewriteUses act rpn newV one b
    if a = rpn ∨ b = rpn then
      match act (.mul a b) with
      | .setStep => .mul a1 one
      | .keep => .mul a1 b1
      | .replace => .mul (rewriteOperand rpn newV a a1) (rewriteOperand rpn newV b b1)
    else .mul a1 b1
  | .sdiv a b =>
    let a1 := rewriteUses act rpn newV one a
    let b1 := rewriteUses act rpn newV one b
    if a = rpn ∨ b = rpn then
      match act (.sdiv a b) with
      | .setStep => .sdiv a1 one
      | .keep => .sdiv a1 b1
      | .replace => .sdiv (rewriteOperand rpn newV a a1) (rewriteOperand rpn newV b b1)
    else .sdiv a1 b1
  | v => v

/-- An incoming value of the header PHI `id` after the loop over the uses. -/
def rewritePhiSlot (act : Value → UseAction) (rpn newV one : Value) (id : Nat) (v : Value) :
    Value :=
  if v = rpn then
    match act (.phi id) with
    | .replace => newV
    | _ => v
  else rewriteUses act rpn newV one v

/-- An operand of the exit comparison after the loop over the uses. -/
def rewriteCmpSlot (act : Value → UseAction) (rpn newV one : Value) (v : Value) : Value :=
  if v = rpn then v else rewriteUses act rpn newV one v

/-- The loop over the uses of `RPN` (source lines 527-558): a failed assertion
(line 555, answered by `domNewV`) or the state afterwards. -/
def rewritePrimaryUses (st : State) (p : Piv) (newV : Value) : Option State :=
  let rpn := Value.phi p.rpn
  let act := useAction st p
  if (st.users rpn).any (fun i => act i == .replace && !st.loop.domNewV i) then none
  else
    let one := constInt st.loop.width 1
    let rw := rewriteUses act rpn newV one
    some
      { loop := { st.loop with
          phis := st.loop.phis.map (fun (q : PhiNode) =>
            { q with init := rewritePhiSlot act rpn newV one q.id q.init,
                     back := rewritePhiSlot act rpn newV one q.id q.back })
          body := st.loop.body.map rw }
        cmp := { st.cmp with op0 := rewriteCmpSlot act rpn newV one st.cmp.op0,
                             op1 := rewriteCmpSlot act rpn newV one st.cmp.op1 }
        cmpIdx := st.cmpIdx
        piv := st.piv.map (fun (q : Piv) => { q with incr := rw q.incr, amt := rw q.amt, opc := rw q.opc })
        others := st.others.map (fun (t : Secondary) => { t with inc := rw t.inc, step := rw t.step })
        toIgnore := st.toIgnore.map rw
        newV := st.newV.map rw }

/-! ## getIndVar (source lines 316-666) -/

/-- The canonical form installed at the end of `getIndVar` (source lines
563-665): the trip count replaces the bound, the predicate becomes `ne`, the
PHI starts at 0. -/
def installCanonical (st : State) (p : Piv) : State × IndVar :=
  let rpn := Value.phi p.rpn
  let tc := tripCount st.loop.width st.cmp st.cmpIdx rpn p.opc (st.initOf p.rpn) p.amt
  let val := tc.1
  let cmp1 : CmpInst := { tc.2 with pred := .ne }
  let cmp2 := (cmp1.setOperand st.cmpIdx val).setOperand (1 - st.cmpIdx) rpn
  let phis := st.loop.phis.map (fun (q : PhiNode) =>
    if q.id = p.rpn then { q with init := constInt st.loop.width 0 } else q)
  ({ st with cmp := cmp2, loop := { st.loop with phis := phis } }, .pair p.rpn val)

/-- The loop with the exit comparison of the state written back. -/
def State.finish (st : State) (s0 s1 : Bool) : Loop :=
  st.loop.setCmpNodeTerm (.condBr (some st.cmp) s0 s1)

/-- Source lines 383-665 of `getIndVar`: classification of the header PHIs,
rewrite of the induction variables, trip count.  The promotion of stack slots
(lines 373-381) does not apply: no operand of the model is a load from a
promotable alloca. -/
def canonicalize (L : Loop) (cmp : CmpInst) : State × IndVar :=
  let st0 : State :=
    { loop := L, cmp := cmp, cmpIdx := -1, piv := none, others := [], toIgnore := [],
      newV := none }
  match classifyPhis st0 (L.phis.map (fun p => p.id)) with
  | .ret st r => (st, r)
  | .next st =>
    match st.piv with
    | none => (st, .null)
    | some p =>
      let e := primaryExpr st p
      let st1 : State := { e.2 with newV := some e.1 }
      match rewriteSecondaries st1 (.phi p.rpn) (List.range st1.others.length) with
      | .ret st2 r => (st2, r)
      | .next st2 =>
        match st2.piv, st2.newV with
        | some p2, some newV =>
          match rewritePrimaryUses st2 p2 newV with
          | none => (st2, .abort)
          | some st3 =>
            match st3.piv with
            | some p3 => installCanonical st3 p3
            | none => (st3, .null)
        | _, _ => (st2, .null)

/-- Source lines 332-666 of `getIndVar`: the exit comparison is found and
oriented, then the loop is canonicalised. -/
def getIndVarFrom (L : Loop) : Loop × IndVar :=
  match L.cmpNodeTerm with
  | none => (L, .null)
  | some (.condBr (some cmp) s0 s1) =>
    let cmp1 : CmpInst := if !s0 then { cmp with pred := cmp.pred.inverse } else cmp
    let succ : Bool × Bool := if !s0 then (s1, s0) else (s0, s1)
    if !cmp1.pred.isIntPredicate || cmp1.pred == .eq then
      (L.setCmpNodeTerm (.condBr (some cmp1) succ.1 succ.2), .null)
    else
      let r := canonicalize L cmp1
      (r.1.finish succ.1 succ.2, r.2)
  | some _ => (L, .null)

/-- `getIndVar` (source lines 316-666): the loop as it is left, and the result. -/
def getIndVar (L : Loop) : Loop × IndVar :=
  match L.headerPreds with
  | [] => (L, .abort)
  | [backedge, incoming] =>
    if incoming then
      if backedge then (L, .null) else getIndVarFrom L
    else if !backedge then (L, .null)
    else getIndVarFrom L
  | _ => (L, .null)

/-- Machine value of the trip count built from the values `a` of the start,
`s` of the step and `b` of the bound (the comparison having the bound as
operand 1): difference of top and bottom, minus one when strict, divided by
the step (negated when descending), plus one unless the predicate is `ne`. -/
def tripValue (w : Nat) (pred : Predicate) (incCompared : Bool) (a s b : Int) : Int :=
  let bottom0 := if incCompared then wrap w (a + s) else a
  let diff := if direction pred < 0 then wrap w (bottom0 - b) else wrap w (b - bottom0)
  let d1 := if isStrict pred then wrap w (diff - 1) else diff
  let step := if direction pred < 0 then wrap w (-s) else s
  let q := wrap w (Int.tdiv (toSigned w d1) (toSigned w step))
  if pred ≠ .ne then wrap w (q + 1) else q

/-! ## Semantics of the original loop -/

/-- Signed predicates. -/
def Predicate.isSigned : Predicate → Bool
  | .sgt | .sge | .slt | .sle => true
  | _ => false

/-- A machine value as the predicate reads it: signed or unsigned. -/
def readAs (w : Nat) (pred : Predicate) (x : Int) : Int :=
  if pred.isSigned then toSigned w x else wrap w x

/-- Result of `icmp pred x y` on `w`-bit values. -/
def icmp (w : Nat) (pred : Predicate) (x y : Int) : Bool :=
  match pred with
  | .eq => wrap w x == wrap w y
  | .ne => wrap w x != wrap w y
  | .ugt => decide (wrap w y < wrap w x)
  | .uge => decide (wrap w y ≤ wrap w x)
  | .ult => decide (wrap w x < wrap w y)
  | .ule => decide (wrap w x ≤ wrap w y)
  | .sgt => decide (toSigned w y < toSigned w x)
  | .sge => decide (toSigned w y ≤ toSigned w x)
  | .slt => decide (toSigned w x < toSigned w y)
  | .sle => decide (toSigned w x ≤ toSigned w y)
  | .fcmp _ => false

/-- The value compared with the bound before iteration `k` of the original
loop: the PHI, `a + k * s`, or its increment when `inc` is set. -/
def comparedAt (w : Nat) (inc : Bool) (a s : Int) (k : Nat) : Int :=
  wrap w (a + ((k : Int) + (if inc then 1 else 0)) * s)

/-- Iterations executed by the original loop from iteration `k` on, when the
exit test `icmp pred compared b` stands before the body and the branch stays in
the loop while it holds; `none` when the fuel runs out. -/
def iterations (w : Nat) (pred : Predicate) (inc : Bool) (a s b : Int) : Nat → Nat → Option Nat
  | 0, _ => none
  | fuel + 1, k =>
    if icmp w pred (comparedAt w inc a s k) b then iterations w pred inc a s b fuel (k + 1)
    else some k

/-- A value that does not depend on a header PHI. -/
def Value.loopInvariant : Value → Bool
  | .phi _ => false
  | .add a b => a.loopInvariant && b.loopInvariant
  | .sub a b => a.loopInvariant && b.loopInvariant
  | .mul a b => a.loopInvariant && b.loopInvariant
  | .sdiv a b => a.loopInvariant && b.loopInvariant
  | _ => true

/-! ## Example loops -/

/-- A loop in the form the pass expects: the header, whose exit test `cmp`
branches to the detacher (in the loop) or out of the loop, has the backedge
block and the preheader as predecessors; every value asked about dominates, and
no instruction stands in the block of the comparison or in the detacher. -/
def headerTestedLoop (w : Nat) (phis : List PhiNode) (cmp : CmpInst) (body : List Value) : Loop :=
  { width := w, headerPreds := [true, false], headerIsDetacher := false,
    backedgeTerm := .br, detacherPredTerm := some (.condBr (some cmp) true false),
    phis := phis, body := body, domPreheader := fun _ => true, domIval := fun _ _ => true,
    domNewV := fun _ => true, inCmpBlock := fun _ => false, inDetacher := fun _ => false }

/-- An environment that gives every argument the value `n`. -/
def constEnv (n : Int) : Env := ⟨fun _ => n, fun _ => 0, fun _ => 0, fun _ => 0⟩

/-- The loop `for (i = 3; i <= 17; i += 2)` on 32 bits. -/
def strideTwo : Loop :=
  headerTestedLoop 32 [⟨0, true, .const 3, .add (.phi 0) (.const 2)⟩] ⟨.sle, .phi 0, .const 17⟩
    [.add (.phi 0) (.const 2)]

/-- The loop `for (i = 0; i < n; i += 2)` on 32 bits with an unsigned test. -/
def unsignedStrideTwo : Loop :=
  headerTestedLoop 32 [⟨0, true, .const 0, .add (.phi 0) (.const 2)⟩] ⟨.ult, .phi 0, .arg 0⟩
    [.add (.phi 0) (.const 2)]

/-- The loop `for (i = 10; i > 0; i -= 1)` on 32 bits. -/
def descendingToZero : Loop :=
  headerTestedLoop 32 [⟨0, true, .const 10, .sub (.phi 0) (.const 1)⟩] ⟨.sgt, .phi 0, .const 0⟩
    [.sub (.phi 0) (.const 1)]

/-- The loop `for (i = 0; ++i < n; )` on 32 bits. -/
def incrementCompared : Loop :=
  headerTestedLoop 32 [⟨0, true, .const 0, .add (.phi 0) (.const 1)⟩]
    ⟨.slt, .add (.phi 0) (.const 1), .arg 0⟩ [.add (.phi 0) (.const 1)]

/-- The loop `for (i = 0; i != n; i += k)` on 32 bits. -/
def notEqualExit : Loop :=
  headerTestedLoop 32 [⟨0, true, .const 0, .add (.phi 0) (.arg 1)⟩] ⟨.ne, .phi 0, .arg 0⟩
    [.add (.phi 0) (.arg 1)]

/-- The loop `for (i = 0; i == n; i += 1)` on 32 bits. -/
def equalExit : Loop :=
  headerTestedLoop 32 [⟨0, true, .const 0, .add (.phi 0) (.const 1)⟩] ⟨.eq, .phi 0, .arg 0⟩
    [.add (.phi 0) (.const 1)]

/-! ## runOnLoop (source lines 731-1034) -/

/-- Class of the terminator of a basic block. -/
inductive TermKind where
  | branch
  | detach
  | sync
  | unreachable
  | other
  deriving DecidableEq, Repr

/-- What `runOnLoop` reads of a basic block: its terminator and successors,
the number of its instructions that are not PHIs (`getNonPhiSize`), its unique
predecessor if it has one, and whether it is in the loop. -/
structure Block where
  term : TermKind
  succs : List Nat
  nonPhiSize : Nat
  uniquePred : Option Nat
  inLoop : Bool
  deriving DecidableEq, Repr

/-- The runtime entry points. -/
inductive CilkFor where
  | cilk_for_32
  | cilk_for_64
  deriving DecidableEq, Repr

/-- Outcome of `runOnLoop`: the value returned, or a failed assertion. -/
inductive RunResult where
  | returned (changed : Bool)
  | assertFailed
  deriving DecidableEq, Repr

/-- What `runOnLoop` reads of its loop.  `blocks` is the control-flow graph,
`header` and `preheader` the blocks of these names, `trueExit` the result of
`getTrueExit`, `loop` the loop as `getIndVar` sees it.  The other fields answer
what the model does not compute: whether the function is skipped, whether the
detacher and the sync block can be emptied (lines 846-887), whether a value
dominates the terminator of `Header` after line 921, whether the outliner
returns a function, and whether the assertions of lines 969-996 on the outlined
loop hold. -/
structure PassInput where
  skipOptnone : Bool
  blocks : Nat → Block
  header : Nat
  preheader : Nat
  trueExit : Option Nat
  detacherEmptied : Bool
  syncEmptied : Bool
  loop : Loop
  domHeaderTerm : Value → Bool
  extracted : Bool
  outlinedClean : Bool

/-- The walk from the true exit to the sync block (source lines 772-778): the
block reached, `none` in the inner option when the walk gives up, `none` outside
when the fuel runs out. -/
def walkToSync (blocks : Nat → Block) : Nat → Option Nat → Option (Option Nat)
  | _, none => some none
  | 0, some _ => none
  | fuel + 1, some endL =>
    if (blocks endL).term = .sync then some (some endL)
    else if (blocks endL).nonPhiSize = 1 ∧ (blocks endL).term = .branch
        ∧ (blocks endL).succs.length = 1 then
      walkToSync blocks fuel (blocks endL).succs.head?
    else some none

/-- Result of the search for the detacher and the sync block. -/
inductive Framing where
  | found (detacher syncer : Nat)
  | reject
  | assertFailed
  | outOfFuel
  deriving DecidableEq, Repr

/-- The detacher and the sync block when the entry branch `b` has two
successors (source lines 790-835). -/
def frameTwoWay (inp : PassInput) (s0 s1 : Nat) : Framing :=
  let ds : Option (Nat × Nat) :=
    if (inp.blocks s0).term = .detach ∧ (inp.blocks s1).term = .sync then some (s0, s1)
    else if (inp.blocks s1).term = .detach ∧ (inp.blocks s0).term = .sync then some (s1, s0)
    else none
  match ds with
  | none => .reject
  | some (detacher, syncer) =>
    match inp.trueExit with
    | none => .reject
    | some done0 =>
      let bi := inp.blocks done0
      let done1 :=
        if bi.term = .branch ∧ (bi.succs = [detacher, syncer] ∨ bi.succs = [syncer, detacher])
        then syncer else done0
      let done2 :=
        if (inp.blocks done1).uniquePred = some syncer
            ∧ (inp.blocks done1).succs.all (fun s => !(inp.blocks s).inLoop)
        then syncer else done1
      if done2 ≠ syncer then .reject else .found detacher syncer

/-- The detacher and the sync block (source lines 767-839); `b` is the block
whose terminator is the entry branch. -/
def establishBlocks (inp : PassInput) (b : Nat) (fuel : Nat) : Framing :=
  match (inp.blocks b).succs with
  | [s0, s1] => frameTwoWay inp s0 s1
  | succs =>
    match walkToSync inp.blocks fuel inp.trueExit with
    | none => .outOfFuel
    | some none => .reject
    | some (some syncer) =>
      match succs.head? with
      | none => .assertFailed
      | some detacher =>
        if (inp.blocks detacher).term = .detach then .found detacher syncer
        else .assertFailed

/-- The runtime function chosen by the bit width of the trip count (source
lines 1002-1008): a failed assertion for a width that is neither 32 nor 64. -/
def selectCilkFor (width : Nat) : Option CilkFor :=
  if width = 32 then some .cilk_for_32
  else if width = 64 then some .cilk_for_64
  else none

/-- What `runOnLoop` leaves: its outcome, the loop as `getIndVar` sees it, and
the runtime function called, if the call was emitted. -/
structure RunOutput where
  result : RunResult
  loop : Loop
  callee : Option CilkFor

/-- Source lines 889-1034 of `runOnLoop`: canonicalisation, hoist of the trip
count above the terminator of `Header`, outlining, and the runtime call. -/
def rewriteLoop (inp : PassInput) : RunOutput :=
  let r := getIndVar inp.loop
  match r.2 with
  | .abort => ⟨.assertFailed, r.1, none⟩
  | .null => ⟨.returned false, r.1, none⟩
  | .pair _ cmp =>
    if r.1.phis.length ≠ 1 then ⟨.assertFailed, r.1, none⟩
    else
      match recursiveMoveChecked inp.domHeaderTerm cmp with
      | none => ⟨.assertFailed, r.1, none⟩
      | some false => ⟨.returned false, r.1, none⟩
      | some true =>
        if !inp.extracted then ⟨.returned false, r.1, none⟩
        else if !inp.outlinedClean then ⟨.assertFailed, r.1, none⟩
        else
          match selectCilkFor r.1.width with
          | none => ⟨.assertFailed, r.1, none⟩
          | some f => ⟨.returned true, r.1, some f⟩

/-- `Loop2Cilk::runOnLoop` (source lines 731-1034); `none` when the fuel of the
walk to the sync block runs out. -/
def runOnLoop (inp : PassInput) (fuel : Nat) : Option RunOutput :=
  if inp.skipOptnone then some ⟨.returned false, inp.loop, none⟩
  else
    let entry : Option Nat :=
      if (inp.blocks inp.header).term ≠ .branch then
        if (inp.blocks inp.preheader).term = .branch then some inp.preheader else none
      else some inp.header
    match entry with
    | none => some ⟨.returned false, inp.loop, none⟩
    | some b =>
      match establishBlocks inp b fuel with
      | .outOfFuel => none
      | .reject => some ⟨.returned false, inp.loop, none⟩
      | .assertFailed => some ⟨.assertFailed, inp.loop, none⟩
      | .found _ _ =>
        if !inp.detacherEmptied then some ⟨.returned false, inp.loop, none⟩
        else if !inp.syncEmptied then some ⟨.returned false, inp.loop, none⟩
        else some (rewriteLoop inp)

/-- A function in which the loop is framed by a detacher (block 1) and a sync
block (block 2), both successors of the header (block 0); the preheader is
block 3; the true exit is the sync block; every step of `runOnLoop` that the
model does not compute succeeds. -/
def framedInput (L : Loop) : PassInput :=
  { skipOptnone := false
    blocks := fun n =>
      if n = 0 then ⟨.branch, [1, 2], 2, some 3, true⟩
      else if n = 1 then ⟨.detach, [4, 5], 1, some 0, true⟩
      else if n = 2 then ⟨.sync, [6], 1, some 0, false⟩
      else ⟨.branch, [0], 1, none, false⟩
    header := 0
    preheader := 3
    trueExit := some 2
    detacherEmptied := true
    syncEmptied := true
    loop := L
    domHeaderTerm := fun _ => true
    extracted := true
    outlinedClean := true }

/-- The loop `for (i = 0; i < n; i += 1)` on `w` bits. -/
def unitStride (w : Nat) : Loop :=
  headerTestedLoop w [⟨0, true, .const 0, .add (.phi 0) (.const 1)⟩] ⟨.slt, .phi 0, .arg 0⟩
    [.add (.phi 0) (.const 1)]

/-- A function whose header (block 0) ends in a branch with the single
successor block 1, which ends in a branch and not in a detach; the true exit
of the loop is block 2, which ends in a sync. -/
def singleSuccessorInput : PassInput :=
  { framedInput (unitStride 32) with
    blocks := fun n =>
      if n = 0 then ⟨.branch, [1], 2, some 3, true⟩
      else if n = 1 then ⟨.branch, [0, 2], 2, some 0, true⟩
      else if n = 2 then ⟨.sync, [6], 1, some 1, false⟩
      else ⟨.branch, [0], 1, none, false⟩ }

/-- `x->getNumUses()` in a loop outside `getIndVar`. -/
def Loop.getNumUses (L : Loop) (x : Value) : Nat :=
  match L.exitCmp with
  | some c =>
    State.getNumUses
      { loop := L, cmp := c, cmpIdx := -1, piv := none, others := [], toIgnore := [],
        newV := none } x
  | none => 0

/-- The loop with `i` from 0 by 1, exit test `i < n`, and `j` from 100 by -3;
the increment of `j` is used by the PHI of `j` only, and `j` by a
multiplication in the body. -/
def secondaryLoop : Loop :=
  headerTestedLoop 32
    [⟨0, true, .const 0, .add (.phi 0) (.const 1)⟩,
     ⟨1, true, .const 100, .add (.phi 1) (.const (-3))⟩]
    ⟨.slt, .phi 0, .arg 0⟩
    [.add (.phi 0) (.const 1), .add (.phi 1) (.const (-3)), .mul (.phi 1) (.arg 5)]

/-! ## Invariant of the primary induction variable -/

/-- What `getIndVar` maintains about the primary induction variable it has
found, `seen` being the header PHIs classified so far: the operand index is 1,
the PHI is not among the secondary induction variables, its backedge value is
the recorded increment, and the increment is an add with the PHI as an
operand. -/
def PivOk (st : State) (seen : List Nat) : Prop :=
  (∀ s ∈ st.others, s.phi ∈ seen) ∧
  ∀ p, st.piv = some p →
    st.cmpIdx = 1 ∧ p.rpn ∈ seen ∧ (∀ s ∈ st.others, s.phi ≠ p.rpn) ∧
    (∃ q, st.loop.findPhi p.rpn = some q ∧ q.back = p.incr) ∧
    (∃ a b, p.incr = .add a b ∧ (a = .phi p.rpn ∨ b = .phi p.rpn))

/-- The loop `i = 3; do { detach body(i); i += 2; } while (i < f())` on 32
bits: the header is the detacher, and the exit test, whose bound is the result
of a call, stands in the backedge block. -/
def callBound : Loop :=
  { width := 32, headerPreds := [true, false], headerIsDetacher := true,
    backedgeTerm := .condBr (some ⟨.slt, .phi 0, .call 0⟩) true false,
    detacherPredTerm := none,
    phis := [⟨0, true, .const 3, .add (.phi 0) (.const 2)⟩],
    body := [.add (.phi 0) (.const 2), .call 0],
    domPreheader := fun _ => true, domIval := fun _ _ => true,
    domNewV := fun _ => true, inCmpBlock := fun _ => false, inDetacher := fun _ => false }

/-- The loop `callBound` in its function: the header (block 0) ends in the
detach, so the entry branch is the one of the preheader (block 3), to the
header or to the sync block (block 2); no instruction of the backedge block
(block 5) dominates the terminator of the preheader. -/
def hoistFailInput : PassInput :=
  { skipOptnone := false
    blocks := fun n =>
      if n = 0 then ⟨.detach, [4, 5], 1, none, true⟩
      else if n = 2 then ⟨.sync, [6], 1, none, false⟩
      else if n = 3 then ⟨.branch, [0, 2], 2, none, false⟩
      else if n = 5 then ⟨.branch, [0, 2], 4, none, true⟩
      else ⟨.other, [], 1, none, true⟩
    header := 0
    preheader := 3
    trueExit := some 2
    detacherEmptied := true
    syncEmptied := true
    loop := callBound
    domHeaderTerm := fun _ => false
    extracted := true
    outlinedClean := true }

/-- The loop `for (i = 0; n > i; i += 1)` on 32 bits: the exit comparison has
the bound `n` as operand 0 and the induction variable as operand 1. -/
def boundFirst : Loop :=
  headerTestedLoop 32 [⟨0, true, .const 0, .add (.phi 0) (.const 1)⟩] ⟨.sgt, .arg 0, .phi 0⟩
    [.add (.phi 0) (.const 1)]

/-- The loop `for (i = 0; i < n; i += 1)` on 32 bits whose header has a second
PHI (number 1), starting at 0, whose backedge value is `back`. -/
def carriedLoop (back : Value) : Loop :=
  headerTestedLoop 32
    [⟨0, true, .const 0, .add (.phi 0) (.const 1)⟩, ⟨1, true, .const 0, back⟩]
    ⟨.slt, .phi 0, .arg 0⟩
    [.add (.phi 0) (.const 1), back]

/-- `inst->moveBefore(pi)` on the instructions standing in front of the anchor,
in block order: `inst` goes directly before `pi`, and at the end of the list,
directly before the anchor, when `pi` is the anchor itself. -/
def moveBefore (pi inst : Value) : List Value → List Value
  | [] => [inst]
  | x :: xs => if x = pi then inst :: x :: xs else x :: moveBefore pi inst xs

/-- The work-list loop of `recursiveMoveBefore` (source lines 286-306) with the
block of the anchor made explicit: `before` lists, in block order, the
instructions moved in front of the anchor so far, and `pi` is the insertion
point.  An instruction already in `before` dominates the anchor. -/
def recursiveMoveOrder (dom : Value → Bool) :
    Nat → List Value → List Value → Value → Option (Bool × List Value)
  | 0, _, _, _ => none
  | _ + 1, [], before, _ => some (true, before)
  | fuel + 1, b :: rest, before, pi =>
    if b.isInstruction && !(dom b || before.contains b) then
      if b.mayHaveSideEffects then some (false, before)
      else recursiveMoveOrder dom fuel (b.operands.reverse ++ rest) (moveBefore pi b before) b
    else recursiveMoveOrder dom fuel rest before pi

/-- The value `(c + 1) - (c * 2)` with `c = x + y`: the instruction `c` is an
operand of both operands of the subtraction. -/
def sharedOperand : Value :=
  .sub (.add (.add (.arg 0) (.arg 1)) (.const 1)) (.mul (.add (.arg 0) (.arg 1)) (.const 2))

/-! ## attemptRecursiveMove (source lines 205-271) -/

/-- Opcodes of instructions: those named in the switch of
`attemptRecursiveMoveHelper`, and some of the others. -/
inductive Opcode where
  | Add | FAdd | Sub | FSub | Mul | FMul | UDiv | SDiv | FDiv | URem | SRem | FRem
  | And | Or | Xor
  | ICmp | FCmp | Select | ExtractElement | InsertElement | ShuffleVector
  | ExtractValue | InsertValue
  | Shl | LShr | AShr
  | Trunc | ZExt | FPToUI | UIToFP | SIToFP | FPTrunc | FPExt | PtrToInt | IntToPtr | BitCast
  | SExt | FPToSI | Load | Store | Call | PHI | Br | Ret | Alloca | GetElementPtr
  deriving DecidableEq, Repr

/-- The case labels of the switch of `attemptRecursiveMoveHelper` (source
lines 207-244). -/
def Opcode.isListed : Opcode → Bool
  | .SExt | .FPToSI | .Load | .Store | .Call | .PHI | .Br | .Ret | .Alloca | .GetElementPtr => false
  | _ => true

/-- Instructions, numbered, with their opcodes and their uses: `uses i` lists
the user of every use of `i`, and `dominates a i u` is `DT.dominates(a, use)`
for the use of `i` by `u`. -/
structure UseGraph where
  opcode : Nat → Opcode
  uses : Nat → List Nat
  dominates : Nat → Nat → Nat → Bool

/-- The loop over the uses in `attemptRecursiveMoveHelper` (source lines
245-250), `helper` being the recursive call: `some false` when the loop
executes `return false`, `some true` when it runs to its end, `none` when the
recursive call does not return. -/
def checkUses (helper : Nat → Option Bool) (dom : Nat → Bool) : List Nat → Option Bool
  | [] => some true
  | u2 :: rest =>
    if !dom u2 then
      match helper u2 with
      | none => none
      | some false => some false
      | some true => checkUses helper dom rest
    else checkUses helper dom rest

/-- `attemptRecursiveMoveHelper` (source lines 205-257): after the loop over
the uses of a listed opcode, control falls through into `default: return
false`; the `return true` after the switch is not reached.  The vector
`candidates` is never written.  `none` when the fuel runs out. -/
def attemptRecursiveMoveHelper (g : UseGraph) (toMoveAfter : Nat) : Nat → Nat → Option Bool
  | 0, _ => none
  | fuel + 1, toCheck =>
    if (g.opcode toCheck).isListed then
      match checkUses (attemptRecursiveMoveHelper g toMoveAfter fuel)
          (g.dominates toMoveAfter toCheck) (g.uses toCheck) with
      | none => none
      | some false => some false
      | some true => some false
    else some false

/-- The moves of `attemptRecursiveMove` (source lines 264-269) for the vector
`candidates`, the pair `(x, y)` standing for `x->moveBefore(y)`: the elements
from the last one down to index 1 are chained in front of `toMoveAfter`, which
is then moved in front of the last of them. -/
def candidateMoves (toMoveAfter : Nat) (candidates : List Nat) : List (Nat × Nat) :=
  let chain := (candidates.drop 1).reverse
  let step := fun (acc : List (Nat × Nat) × Nat) (c : Nat) => (acc.1 ++ [(c, acc.2)], c)
  let r := chain.foldl step ([], toMoveAfter)
  if r.2 ≠ toMoveAfter then r.1 ++ [(toMoveAfter, r.2)] else r.1

/-- `attemptRecursiveMove` (source lines 259-271): the result and the moves
made; `candidates` is still empty after the helper. -/
def attemptRecursiveMove (g : UseGraph) (toMoveAfter toCheck fuel : Nat) :
    Option (Bool × List (Nat × Nat)) :=
  match attemptRecursiveMoveHelper g toMoveAfter fuel toCheck with
  | none => none
  | some false => some (false, [])
  | some true => some (true, candidateMoves toMoveAfter [])

/-- Instruction 0 is the anchor, a call; instruction 1 is an add used by the
multiplication 2, which is used by the truncation 3; `dominated` tells which
users the anchor dominates. -/
def chainGraph (dominated : Nat → Bool) : UseGraph :=
  { opcode := fun i => if i = 1 then .Add else if i = 2 then .Mul else if i = 3 then .Trunc
      else .Call,
    uses := fun i => if i = 1 then [2] else if i = 2 then [3] else [],
    dominates := fun _ _ u => dominated u }

/-- The loop `for (i = 3; i <= 17; i += 2)` on 32 bits with three more users
of `i`: `i * a5`, which stands in the block of the exit comparison, `i - a6`,
which stands in the detacher block, and `i + a7`, which stands in neither. -/
def headerUserLoop : Loop :=
  { headerTestedLoop 32 [⟨0, true, .const 3, .add (.phi 0) (.const 2)⟩] ⟨.sle, .phi 0, .const 17⟩
      [.add (.phi 0) (.const 2), .mul (.phi 0) (.arg 5), .sub (.phi 0) (.arg 6),
        .add (.phi 0) (.arg 7)] with
    inCmpBlock := fun v => v == .mul (.phi 0) (.arg 5)
    inDetacher := fun v => v == .sub (.phi 0) (.arg 6) }

/-- The primary induction variable of `headerUserLoop`. -/
def headerUserPiv : Piv := ⟨0, .add (.phi 0) (.const 2), .const 2, .phi 0⟩

/-- The state of `getIndVar` on `headerUserLoop` when the loop over the uses
of the primary induction variable starts. -/
def headerUserState : State :=
  State.mk headerUserLoop ⟨.sle, .phi 0, .const 17⟩ 1 (some headerUserPiv) []
    [.mul (.phi 0) (.const 2), .add (.mul (.phi 0) (.const 2)) (.const 3)]
    (some (.add (.mul (.phi 0) (.const 2)) (.const 3)))

/-! ## getTrueExit (source lines 678-729) -/

/-- `SmallPtrSet::insert`; the list keeps the order of insertion. -/
def setInsert (s : List Nat) (b : Nat) : List Nat :=
  if s.contains b then s else s ++ [b]

/-- The forward walk from one exit block (source lines 693-711).  The head of
`q` is the back of the vector `Q`; after a block ending in a branch, the first
successor that is not in the loop, not an exit block, not absorbed and not yet
reached is pushed and the loop over the successors is left (`break`); any
terminator other than a branch or `unreachable` ends the walk with
`valid = false`.  Returns `valid`, `reachable` and the blocks popped, in the
order of their visits; `none` when the fuel runs out. -/
def exitWalk (blocks : Nat → Block) (exitBlocks alsoLoop : List Nat) :
    Nat → List Nat → List Nat → List Nat → Option (Bool × List Nat × List Nat)
  | 0, _, _, _ => none
  | _ + 1, [], reachable, visited => some (true, reachable, visited)
  | fuel + 1, m :: q, reachable, visited =>
    match (blocks m).term with
    | .unreachable =>
      exitWalk blocks exitBlocks alsoLoop fuel q (setInsert reachable m) (visited ++ [m])
    | .branch =>
      match (blocks m).succs.find? (fun suc =>
          !((blocks suc).inLoop || exitBlocks.contains suc || alsoLoop.contains suc
            || (setInsert reachable m).contains suc)) with
      | some suc =>
        exitWalk blocks exitBlocks alsoLoop fuel (suc :: q) (setInsert reachable m) (visited ++ [m])
      | none => exitWalk blocks exitBlocks alsoLoop fuel q (setInsert reachable m) (visited ++ [m])
    | _ => some (false, reachable, visited ++ [m])

/-- One pass of `for (auto tempExit : exits)` (source lines 691-718) over the
exits `todo` still to be met, `n` being the number of blocks of the function:
an exit erased by an earlier iteration is not met any more; a valid walk
erases the blocks it reached from `exits`, inserts them into `alsoLoop` and
sets `toRemove`. -/
def exitsRound (blocks : Nat → Block) (exitBlocks : List Nat) (n : Nat) :
    List Nat → List Nat → List Nat → Bool → Option (List Nat × List Nat × Bool)
  | [], exits, alsoLoop, toRemove => some (exits, alsoLoop, toRemove)
  | tempExit :: todo, exits, alsoLoop, toRemove =>
    if !exits.contains tempExit then exitsRound blocks exitBlocks n todo exits alsoLoop toRemove
    else
      match exitWalk blocks exitBlocks alsoLoop (n + 1) [tempExit] [] [] with
      | none => none
      | some (valid, reachable, _) =>
        if valid && decide (reachable.length > 0) then
          exitsRound blocks exitBlocks n todo (exits.filter (fun b => !reachable.contains b))
            (reachable.foldl setInsert alsoLoop) true
        else exitsRound blocks exitBlocks n todo exits alsoLoop toRemove

/-- The loop `while (toRemove)` (source lines 688-720): the set `exits` when
the loop ends; `none` when the fuel runs out. -/
def trueExitLoop (blocks : Nat → Block) (exitBlocks : List Nat) (n : Nat) :
    Nat → List Nat → List Nat → Option (List Nat)
  | 0, _, _ => none
  | fuel + 1, exits, alsoLoop =>
    if exits.length ≥ 2 then
      match exitsRound blocks exitBlocks n exits exits alsoLoop false with
      | none => none
      | some (exits1, alsoLoop1, true) => trueExitLoop blocks exitBlocks n fuel exits1 alsoLoop1
      | some (exits1, _, false) => some exits1
    else some exits

/-- `getTrueExit` (source lines 678-729) for a loop with the exit blocks
`exitBlocks` in a function whose blocks are numbered below `n`: `some none` is
the null result, and `none` stands for a run that does not end within the fuel
(`trueExitLoop_some`). -/
def getTrueExit (blocks : Nat → Block) (n : Nat) (exitBlocks : List Nat) : Option (Option Nat) :=
  let exits := exitBlocks.foldl setInsert []
  match trueExitLoop blocks exitBlocks n (exits.length + 1) exits [] with
  | none => none
  | some exits1 => some (if exits1.length = 1 then exits1.head? else none)

/-- A loop (blocks 0 and 5) with the exit blocks 1 and 2: block 1 ends in a
conditional branch to the blocks `s` and `t`, block 3 ends in `unreachable`,
and blocks 2 and 4 end in a return. -/
def twoExitBlocks (s t : Nat) : Nat → Block := fun b =>
  if b = 0 then ⟨.branch, [5, 1], 1, none, true⟩
  else if b = 5 then ⟨.branch, [0, 2], 1, some 0, true⟩
  else if b = 1 then ⟨.branch, [s, t], 1, some 0, false⟩
  else if b = 3 then ⟨.unreachable, [], 1, some 1, false⟩
  else ⟨.other, [], 1, none, false⟩

/-! ## The trip count of loops with several header PHIs -/

theorem sizeSum_append (xs ys : List Value) : sizeSum (xs ++ ys) = sizeSum xs + sizeSum ys := by
  induction xs with
  | nil => simp [sizeSum]
  | cons x xs ih => simp [sizeSum, ih, Nat.add_assoc]

theorem sizeSum_reverse_operands (v : Value) : sizeSum v.operands.reverse < v.size := by
  cases v <;> simp [Value.operands, sizeSum, Value.size] <;> omega

theorem size_pos (v : Value) : 0 < v.size := by
  cases v <;> simp [Value.size]

/-- The work-list loop ends within a fuel above the total size of the work
list. -/
theorem recursiveMoveLoop_isSome (dom : Value → Bool) :
    ∀ (fuel : Nat) (toMove moved : List Value), sizeSum toMove < fuel →
      (recursiveMoveLoop dom fuel toMove moved).isSome = true := by
  intro fuel
  induction fuel with
  | zero => intro toMove moved h; omega
  | succ f ih =>
    intro toMove moved h
    cases toMove with
    | nil => simp [recursiveMoveLoop]
    | cons b rest =>
      unfold recursiveMoveLoop
      have hb := size_pos b
      split
      · split
        · rfl
        · apply ih
          have h2 := sizeSum_reverse_operands b
          simp only [sizeSum_append]
          simp only [sizeSum] at h
          omega
      · apply ih
        simp only [sizeSum] at h
        omega

theorem wrap_wrap (w : Nat) (x : Int) : wrap w (wrap w x) = wrap w x := by
  unfold wrap; exact Int.emod_emod_of_dvd x (dvd_refl _)

theorem two_pow_pos (w : Nat) : (0 : Int) < 2 ^ w := by positivity

theorem wrap_nonneg (w : Nat) (x : Int) : 0 ≤ wrap w x :=
  Int.emod_nonneg x (ne_of_gt (two_pow_pos w))

theorem wrap_lt (w : Nat) (x : Int) : wrap w x < 2 ^ w :=
  Int.emod_lt_of_pos x (two_pow_pos w)

theorem wrap_toSigned (w : Nat) (x : Int) : wrap w (toSigned w x) = wrap w x := by
  unfold toSigned wrap
  split
  · exact Int.emod_emod_of_dvd x (dvd_refl _)
  · rw [Int.sub_emod, Int.emod_self, Int.sub_zero, Int.emod_emod_of_dvd _ (dvd_refl _),
      Int.emod_emod_of_dvd _ (dvd_refl _)]

theorem wrap_add_wrap (w : Nat) (x y : Int) : wrap w (wrap w x + wrap w y) = wrap w (x + y) := by
  unfold wrap; exact (Int.add_emod x y _).symm

theorem wrap_sub_wrap (w : Nat) (x y : Int) : wrap w (wrap w x - wrap w y) = wrap w (x - y) := by
  unfold wrap; exact (Int.sub_emod x y _).symm

theorem wrap_mul_wrap (w : Nat) (x y : Int) : wrap w (wrap w x * wrap w y) = wrap w (x * y) := by
  unfold wrap; exact (Int.mul_emod x y _).symm

theorem wrap_of_range (w : Nat) (x : Int) (h0 : 0 ≤ x) (h1 : x < 2 ^ w) : wrap w x = x :=
  Int.emod_eq_of_lt h0 h1

theorem toSigned_wrap (w : Nat) (x : Int) : toSigned w (wrap w x) = toSigned w x := by
  unfold toSigned; rw [show wrap w x % 2 ^ w = x % 2 ^ w from wrap_wrap w x]

theorem eval_wrap (w : Nat) (env : Env) (v : Value) : wrap w (eval w env v) = eval w env v := by
  cases v <;> simp [eval, wrap_wrap]

theorem eval_constInt (w : Nat) (env : Env) (c : Int) : eval w env (constInt w c) = wrap w c := by
  simp [constInt, eval, wrap_toSigned]

theorem eval_createAdd (w : Nat) (env : Env) (a b : Value) :
    eval w env (createAdd w a b) = wrap w (eval w env a + eval w env b) := by
  unfold createAdd
  split
  · simp [constInt, eval, wrap_add_wrap, wrap_toSigned]
  · simp [eval]

theorem eval_createSub (w : Nat) (env : Env) (a b : Value) :
    eval w env (createSub w a b) = wrap w (eval w env a - eval w env b) := by
  unfold createSub
  split
  · simp [constInt, eval, wrap_sub_wrap, wrap_toSigned]
  · simp [eval]

theorem wrap_sub_left (w : Nat) (x y : Int) : wrap w (wrap w x - y) = wrap w (x - y) := by
  unfold wrap
  rw [Int.sub_emod, Int.emod_emod_of_dvd x (dvd_refl _), ← Int.sub_emod]

theorem wrap_sub_right (w : Nat) (x y : Int) : wrap w (x - wrap w y) = wrap w (x - y) := by
  unfold wrap
  rw [Int.sub_emod, Int.emod_emod_of_dvd y (dvd_refl _), ← Int.sub_emod]

theorem wrap_add_left (w : Nat) (x y : Int) : wrap w (wrap w x + y) = wrap w (x + y) := by
  unfold wrap; exact Int.emod_add_emod x _ y

theorem wrap_add_right (w : Nat) (x y : Int) : wrap w (x + wrap w y) = wrap w (x + y) := by
  unfold wrap; exact Int.add_emod_emod x y _

theorem wrap_neg (w : Nat) (x : Int) : wrap w (-(wrap w x)) = wrap w (-x) := by
  have h := wrap_sub_right w 0 x
  simpa using h

theorem eval_neg (w : Nat) (env : Env) (a : Value) :
    eval w env (neg w a) = wrap w (-(eval w env a)) := by
  unfold neg
  split
  · simp only [constInt, eval, wrap_toSigned, wrap_neg]
  · simp only [eval]
    rw [wrap_sub_left]; simp

theorem eval_subOne (w : Nat) (env : Env) (a : Value) :
    eval w env (subOne w a) = wrap w (eval w env a - 1) := by
  unfold subOne
  split
  · simp only [constInt, eval, wrap_toSigned]
    rw [← wrap_sub_wrap, wrap_toSigned, wrap_sub_wrap, wrap_sub_left]
  · simp only [constInt, eval, wrap_toSigned, wrap_sub_right]

theorem eval_addOne (w : Nat) (env : Env) (a : Value) :
    eval w env (addOne w a) = wrap w (eval w env a + 1) := by
  unfold addOne
  split
  · simp only [constInt, eval, wrap_toSigned]
    rw [← wrap_add_wrap, wrap_toSigned, wrap_add_wrap, wrap_add_left]
  · simp only [constInt, eval, wrap_toSigned, wrap_add_right]

theorem eval_createSDiv (w : Nat) (env : Env) (a b : Value) :
    eval w env (createSDiv w a b) =
      wrap w (Int.tdiv (toSigned w (eval w env a)) (toSigned w (eval w env b))) := by
  unfold createSDiv
  split
  · split
    · simp [eval]
    · simp [constInt, eval, wrap_toSigned, toSigned_wrap]
  · simp [eval]

theorem toSigned_one (w : Nat) (hw : 2 ≤ w) : toSigned w 1 = 1 := by
  have h : (4 : Int) ≤ 2 ^ w := by
    have : (2 : Int) ^ 2 ≤ 2 ^ w := pow_le_pow_right₀ (by norm_num) hw
    simpa using this
  have h1 : (1 : Int) % 2 ^ w = 1 := Int.emod_eq_of_lt (by norm_num) (by omega)
  unfold toSigned
  rw [h1]; split <;> omega

theorem isZero_eval (w : Nat) (env : Env) (v : Value) (h : isZero v = true) :
    eval w env v = 0 := by
  cases v <;> simp [isZero, getInt] at h
  subst h; simp [eval, wrap]

theorem isOne_eval (w : Nat) (env : Env) (v : Value) (h : isOne v = true) :
    eval w env v = wrap w 1 := by
  cases v <;> simp [isOne, getInt] at h
  subst h; simp [eval]

theorem sdiv_one (w : Nat) (hw : 2 ≤ w) (x : Int) :
    wrap w (Int.tdiv (toSigned w x) (toSigned w (wrap w 1))) = wrap w x := by
  rw [toSigned_wrap, toSigned_one w hw, Int.tdiv_one, wrap_toSigned]

theorem setOperand_pred (c : CmpInst) (i : Int) (v : Value) : (c.setOperand i v).pred = c.pred := by
  unfold CmpInst.setOperand; split <;> rfl

/-- Value of the difference `top - bottom` as the code builds it, when the
subtraction is skipped only for a bottom that is not the bound. -/
theorem eval_diff (w : Nat) (env : Env) (top bottom val : Value)
    (h : isZero bottom = true → val = top) :
    eval w env (if !isZero bottom then createSub w top bottom else val) =
      wrap w (eval w env top - eval w env bottom) := by
  cases hb : isZero bottom
  · simp [eval_createSub]
  · simp [h hb, isZero_eval w env bottom hb, eval_wrap]

/-- Value of the quotient as the code builds it. -/
theorem eval_quot (w : Nat) (hw : 2 ≤ w) (env : Env) (val amt0 : Value) :
    eval w env (if !isOne amt0 then createSDiv w val amt0 else val) =
      wrap w (Int.tdiv (toSigned w (eval w env val)) (toSigned w (eval w env amt0))) := by
  cases hb : isOne amt0
  · simp [eval_createSDiv]
  · simp [isOne_eval w env amt0 hb, sdiv_one w hw, eval_wrap]

theorem eval_tripDiff (w : Nat) (env : Env) (pred : Predicate) (val bottom0 : Value)
    (hz : direction pred < 0 → isZero val = false) :
    eval w env (tripDiff w pred val bottom0) =
      (if isStrict pred then
        wrap w ((if direction pred < 0 then wrap w (eval w env bottom0 - eval w env val)
          else wrap w (eval w env val - eval w env bottom0)) - 1)
      else (if direction pred < 0 then wrap w (eval w env bottom0 - eval w env val)
          else wrap w (eval w env val - eval w env bottom0))) := by
  unfold tripDiff
  by_cases hd : direction pred < 0
  · have hzz := hz hd
    simp only [hd, if_true]
    have hdiff := eval_diff w env bottom0 val val (by simp [hzz])
    split
    · rw [eval_subOne, hdiff]
    · exact hdiff
  · simp only [hd, if_false]
    have hdiff := eval_diff w env val bottom0 val (fun _ => rfl)
    split
    · rw [eval_subOne, hdiff]
    · exact hdiff

theorem eval_tripQuot (w : Nat) (hw : 2 ≤ w) (env : Env) (pred : Predicate) (val amt0 : Value) :
    eval w env (tripQuot w pred 1 val amt0) =
      (if pred ≠ .ne then
        wrap w (wrap w (Int.tdiv (toSigned w (eval w env val))
          (toSigned w (if direction pred < 0 then wrap w (-(eval w env amt0))
            else eval w env amt0))) + 1)
      else wrap w (Int.tdiv (toSigned w (eval w env val))
          (toSigned w (if direction pred < 0 then wrap w (-(eval w env amt0))
            else eval w env amt0)))) := by
  unfold tripQuot
  have hstep : eval w env (negateStep w pred 1 amt0) =
      (if direction pred < 0 then wrap w (-(eval w env amt0)) else eval w env amt0) := by
    cases pred <;> simp [negateStep, direction, eval_neg]
  split
  · rw [eval_addOne, eval_quot w hw, hstep]
  · rw [eval_quot w hw, hstep]

theorem tripCount_eval (w : Nat) (hw : 2 ≤ w) (env : Env) (cmp : CmpInst)
    (rpn opc adder amt : Value)
    (hz : direction cmp.pred < 0 → isZero cmp.op1 = false) :
    eval w env (tripCount w cmp 1 rpn opc adder amt).1 =
      tripValue w cmp.pred (decide (opc ≠ rpn)) (eval w env adder) (eval w env amt)
        (eval w env cmp.op1) := by
  have hp : (if opc ≠ rpn then cmp.setOperand (1 - 1) rpn else cmp).pred = cmp.pred := by
    split
    · exact setOperand_pred _ _ _
    · rfl
  simp only [tripCount, createSExtOrTrunc, createZExt, createSExt, createTrunc, hp]
  have hg : cmp.getOperand 1 = cmp.op1 := by simp [CmpInst.getOperand]
  rw [eval_tripQuot w hw, eval_tripDiff w env _ _ _ (by rw [hg]; exact hz), hg]
  unfold tripValue
  by_cases hopc : opc = rpn
  · simp [hopc]
  · simp [hopc, eval_createAdd]

theorem toSigned_of_range (w : Nat) (hw : 1 ≤ w) (x : Int) (h0 : 0 ≤ x) (h1 : x < 2 ^ (w - 1)) :
    toSigned w x = x := by
  have hp : (2 : Int) ^ w = 2 * 2 ^ (w - 1) := by
    rw [← pow_succ']; congr 1; omega
  have hx : x % 2 ^ w = x := Int.emod_eq_of_lt h0 (by omega)
  unfold toSigned
  rw [hx]; split <;> omega

theorem pow_pred_lt (w : Nat) (hw : 1 ≤ w) : (2 : Int) ^ (w - 1) < 2 ^ w := by
  have hp : (2 : Int) ^ w = 2 * 2 ^ (w - 1) := by
    rw [← pow_succ']; congr 1; omega
  have := two_pow_pos (w - 1)
  omega

/-- The machine trip count is `d / m + 1` when the difference, less one for a
strict predicate, is `d ≥ 0` and below `2 ^ (w - 1)`, and the step read as a
signed number (negated when descending) is `m > 0`. -/
theorem tripValue_of_range (w : Nat) (hw : 2 ≤ w) (pred : Predicate) (inc : Bool)
    (a s b d m : Int) (hne : pred ≠ .ne)
    (hd : (if direction pred < 0 then wrap w ((if inc then wrap w (a + s) else a) - b)
            else wrap w (b - (if inc then wrap w (a + s) else a)))
          = d + (if isStrict pred then 1 else 0))
    (hd0 : 0 ≤ d) (hd1 : d < 2 ^ (w - 1))
    (hm : toSigned w (if direction pred < 0 then wrap w (-s) else s) = m) (hmpos : 0 < m) :
    tripValue w pred inc a s b = d / m + 1 := by
  have hw1 : 1 ≤ w := by omega
  have hlt := pow_pred_lt w hw1
  unfold tripValue
  simp only [hd, hm, hne, ne_eq, not_false_eq_true, if_true]
  have hd1w : (if isStrict pred then wrap w (d + (if isStrict pred then 1 else 0) - 1)
      else d + (if isStrict pred then 1 else 0)) = d := by
    split
    · simp only [if_true, add_sub_cancel_right]
      exact wrap_of_range w d hd0 (by omega)
    · simp
  rw [hd1w, toSigned_of_range w hw1 d hd0 (by omega), Int.tdiv_eq_ediv hd0 (le_of_lt hmpos)]
  have hq0 : 0 ≤ d / m := Int.ediv_nonneg hd0 (le_of_lt hmpos)
  have hq1 : d / m ≤ d := Int.ediv_le_self m hd0
  rw [wrap_of_range w (d / m) hq0 (by omega), wrap_of_range w (d / m + 1) (by omega) (by omega)]

theorem wrap_readAs (w : Nat) (pred : Predicate) (x : Int) : wrap w (readAs w pred x) = wrap w x := by
  unfold readAs; split
  · exact wrap_toSigned w x
  · exact wrap_wrap w x

theorem icmp_readAs (w : Nat) (pred : Predicate) (hord : direction pred ≠ 0) (x y : Int) :
    icmp w pred x y = true ↔
      (if direction pred < 0 then
        readAs w pred y + (if isStrict pred then 1 else 0) ≤ readAs w pred x
      else readAs w pred x + (if isStrict pred then 1 else 0) ≤ readAs w pred y) := by
  cases pred <;>
    simp [icmp, readAs, direction, isStrict, Predicate.isSigned] at hord ⊢ <;> omega

theorem rewriteUses_loopInvariant (act : Value → UseAction) (n : Nat) (newV one : Value) :
    ∀ v : Value, v.loopInvariant = true → rewriteUses act (.phi n) newV one v = v := by
  intro v
  induction v with
  | add a b iha ihb =>
    intro h
    simp only [Value.loopInvariant, Bool.and_eq_true] at h
    have ha : a ≠ .phi n := by intro e; subst e; simp [Value.loopInvariant] at h
    have hb : b ≠ .phi n := by intro e; subst e; simp [Value.loopInvariant] at h
    simp [rewriteUses, iha h.1, ihb h.2, ha, hb]
  | sub a b iha ihb =>
    intro h
    simp only [Value.loopInvariant, Bool.and_eq_true] at h
    have ha : a ≠ .phi n := by intro e; subst e; simp [Value.loopInvariant] at h
    have hb : b ≠ .phi n := by intro e; subst e; simp [Value.loopInvariant] at h
    simp [rewriteUses, iha h.1, ihb h.2, ha, hb]
  | mul a b iha ihb =>
    intro h
    simp only [Value.loopInvariant, Bool.and_eq_true] at h
    have ha : a ≠ .phi n := by intro e; subst e; simp [Value.loopInvariant] at h
    have hb : b ≠ .phi n := by intro e; subst e; simp [Value.loopInvariant] at h
    simp [rewriteUses, iha h.1, ihb h.2, ha, hb]
  | sdiv a b iha ihb =>
    intro h
    simp only [Value.loopInvariant, Bool.and_eq_true] at h
    have ha : a ≠ .phi n := by intro e; subst e; simp [Value.loopInvariant] at h
    have hb : b ≠ .phi n := by intro e; subst e; simp [Value.loopInvariant] at h
    simp [rewriteUses, iha h.1, ihb h.2, ha, hb]
  | _ => intro _; simp [rewriteUses]

theorem loopInvariant_ne_phi (v : Value) (n : Nat) (h : v.loopInvariant = true) : v ≠ .phi n := by
  intro e; subst e; simp [Value.loopInvariant] at h

theorem loopInvariant_ne_add_phi (v s : Value) (n : Nat) (h : v.loopInvariant = true) :
    v ≠ .add (.phi n) s := by
  intro e; subst e; simp [Value.loopInvariant] at h

theorem classifyPhis_single (L : Loop) (id : Nat) (init step bound opc0 : Value)
    (pred : Predicate)
    (hphis : L.phis = [⟨id, true, init, .add (.phi id) step⟩])
    (hopc : opc0 = .phi id ∨ opc0 = .add (.phi id) step)
    (hstep : step.loopInvariant = true) (hbound : bound.loopInvariant = true) :
    let st0 : State :=
      { loop := L, cmp := ⟨pred, opc0, bound⟩, cmpIdx := -1, piv := none, others := [],
        toIgnore := [], newV := none }
    let st1 : State :=
      { st0 with cmpIdx := 1, piv := some ⟨id, .add (.phi id) step, step, opc0⟩ }
    classifyPhis st0 (L.phis.map (fun p => p.id)) = .next st1 ∨
      classifyPhis st0 (L.phis.map (fun p => p.id)) = .ret st1 .null ∨
      classifyPhis st0 (L.phis.map (fun p => p.id)) = .ret st1 .abort := by
  intro st0 st1
  have hs : step ≠ .phi id := loopInvariant_ne_phi step id hstep
  have hb1 : bound ≠ .phi id := loopInvariant_ne_phi bound id hbound
  have hb2 : bound ≠ .add (.phi id) step := loopInvariant_ne_add_phi bound step id hbound
  have hfind : L.findPhi id = some ⟨id, true, init, .add (.phi id) step⟩ := by
    simp [Loop.findPhi, hphis]
  rcases hopc with hopc | hopc
  · subst hopc
    simp only [hphis, List.map, classifyPhis, classifyPhi, st0, hfind]
    simp [Value.isBinaryOperator, normalizeSub, recordInduction, uncast, hs, hb1, hb2, State.initOf, hfind]
    generalize recursiveMoveChecked L.domPreheader step = c1
    generalize recursiveMoveChecked L.domPreheader init = c2
    rcases c1 with _ | _ | _ <;> rcases c2 with _ | _ | _ <;> simp [st1, st0]
  · subst hopc
    simp only [hphis, List.map, classifyPhis, classifyPhi, st0, hfind]
    simp [Value.isBinaryOperator, normalizeSub, recordInduction, uncast, hs, hb1, hb2, State.initOf, hfind]
    generalize recursiveMoveChecked L.domPreheader step = c1
    generalize recursiveMoveChecked L.domPreheader init = c2
    rcases c1 with _ | _ | _ <;> rcases c2 with _ | _ | _ <;> simp [st1, st0]

theorem ignore_fields (st : State) (v : Value) :
    (st.ignore v).loop = st.loop ∧ (st.ignore v).cmp = st.cmp ∧ (st.ignore v).cmpIdx = st.cmpIdx
      ∧ (st.ignore v).piv = st.piv ∧ (st.ignore v).others = st.others
      ∧ (st.ignore v).newV = st.newV := by
  simp [State.ignore]

theorem primaryExpr_fields (st : State) (p : Piv) :
    (primaryExpr st p).2.loop = st.loop ∧ (primaryExpr st p).2.cmp = st.cmp
      ∧ (primaryExpr st p).2.cmpIdx = st.cmpIdx ∧ (primaryExpr st p).2.piv = st.piv
      ∧ (primaryExpr st p).2.others = st.others ∧ (primaryExpr st p).2.newV = st.newV := by
  unfold primaryExpr
  simp only
  split <;> split <;> simp [State.ignore]

theorem rewriteUses_ne_phi (act : Value → UseAction) (n : Nat) (newV one s : Value) :
    rewriteUses act (.phi n) newV one (.add (.phi n) s) ≠ .phi n := by
  simp only [rewriteUses, true_or, if_true]
  split <;> simp

theorem tripCount_fst (w : Nat) (cmp : CmpInst) (rpn opc adder amt : Value) :
    (tripCount w cmp 1 rpn opc adder amt).1 =
      tripQuot w cmp.pred 1
        (tripDiff w cmp.pred cmp.op1 (if opc ≠ rpn then createAdd w adder amt else adder)) amt := by
  have hp : (if opc ≠ rpn then cmp.setOperand (1 - 1) rpn else cmp).pred = cmp.pred := by
    split
    · exact setOperand_pred _ _ _
    · rfl
  simp only [tripCount, createSExtOrTrunc, createZExt, createSExt, createTrunc, hp]
  simp [CmpInst.getOperand]

theorem rewritePrimaryUses_some (st st3 : State) (p : Piv) (newV : Value)
    (h : rewritePrimaryUses st p newV = some st3) :
    st3.cmpIdx = st.cmpIdx ∧ st3.loop.width = st.loop.width
      ∧ st3.cmp = { st.cmp with
          op0 := rewriteCmpSlot (useAction st p) (.phi p.rpn) newV (constInt st.loop.width 1)
            st.cmp.op0,
          op1 := rewriteCmpSlot (useAction st p) (.phi p.rpn) newV (constInt st.loop.width 1)
            st.cmp.op1 }
      ∧ st3.piv = st.piv.map (fun (q : Piv) =>
          { q with
            incr := rewriteUses (useAction st p) (.phi p.rpn) newV (constInt st.loop.width 1) q.incr,
            amt := rewriteUses (useAction st p) (.phi p.rpn) newV (constInt st.loop.width 1) q.amt,
            opc := rewriteUses (useAction st p) (.phi p.rpn) newV (constInt st.loop.width 1) q.opc })
      ∧ st3.loop.phis = st.loop.phis.map (fun (q : PhiNode) =>
          { q with
            init := rewritePhiSlot (useAction st p) (.phi p.rpn) newV (constInt st.loop.width 1)
              q.id q.init,
            back := rewritePhiSlot (useAction st p) (.phi p.rpn) newV (constInt st.loop.width 1)
              q.id q.back }) := by
  unfold rewritePrimaryUses at h
  simp only at h
  split at h
  · exact absurd h (by simp)
  · simp only [Option.some.injEq] at h
    subst h
    simp

theorem rewriteCmpSlot_loopInvariant (act : Value → UseAction) (n : Nat) (newV one v : Value)
    (h : v.loopInvariant = true) : rewriteCmpSlot act (.phi n) newV one v = v := by
  unfold rewriteCmpSlot
  rw [if_neg (loopInvariant_ne_phi v n h)]
  exact rewriteUses_loopInvariant _ _ _ _ _ h

theorem rewritePhiSlot_loopInvariant (act : Value → UseAction) (n id : Nat) (newV one v : Value)
    (h : v.loopInvariant = true) : rewritePhiSlot act (.phi n) newV one id v = v := by
  unfold rewritePhiSlot
  rw [if_neg (loopInvariant_ne_phi v n h)]
  exact rewriteUses_loopInvariant _ _ _ _ _ h

theorem canonicalize_single (L : Loop) (id : Nat) (init step bound opc0 : Value)
    (pred : Predicate)
    (hphis : L.phis = [⟨id, true, init, .add (.phi id) step⟩])
    (hopc : opc0 = .phi id ∨ opc0 = .add (.phi id) step)
    (hinit : init.loopInvariant = true)
    (hstep : step.loopInvariant = true) (hbound : bound.loopInvariant = true)
    (rpn : Nat) (tc : Value)
    (h : (canonicalize L ⟨pred, opc0, bound⟩).2 = .pair rpn tc) :
    rpn = id ∧ tc = tripQuot L.width pred 1
        (tripDiff L.width pred bound
          (if opc0 ≠ .phi id then createAdd L.width init step else init)) step := by
  have hcl := classifyPhis_single L id init step bound opc0 pred hphis hopc hstep hbound
  simp only at hcl
  unfold canonicalize at h
  simp only at h
  rcases hcl with hcl | hcl | hcl
  · rw [hcl] at h
    simp only at h
    obtain ⟨f1, f2, f3, f4, f5, f6⟩ := primaryExpr_fields
      { loop := L, cmp := ⟨pred, opc0, bound⟩, cmpIdx := 1,
        piv := some ⟨id, .add (.phi id) step, step, opc0⟩, others := [], toIgnore := [],
        newV := none } ⟨id, .add (.phi id) step, step, opc0⟩
    simp only at f1 f2 f3 f4 f5 f6
    simp only [f5, List.length_nil, List.range_zero, rewriteSecondaries, f4] at h
    generalize primaryExpr _ _ = e at f1 f2 f3 f4 f5 f6 h
    obtain ⟨nv, st⟩ := e
    obtain ⟨lp, cm, ci, pv, ot, ti, nvv⟩ := st
    simp only at f1 f2 f3 f4 f5 f6 h
    subst f1 f2 f3 f4 f5 f6
    generalize hr : rewritePrimaryUses _ _ _ = r at h
    cases r with
    | none => simp at h
    | some st3 =>
      obtain ⟨g1, g2, g3, g4, g5⟩ := rewritePrimaryUses_some _ _ _ _ hr
      simp only [Option.map_some'] at g1 g2 g3 g4 g5
      simp only [g4, installCanonical, IndVar.pair.injEq] at h
      obtain ⟨h1, h2⟩ := h
      refine ⟨h1.symm, ?_⟩
      rw [← h2, g1, tripCount_fst, g3, g2]
      simp only
      rw [rewriteCmpSlot_loopInvariant _ _ _ _ _ hbound, rewriteUses_loopInvariant _ _ _ _ _ hstep]
      have hi : State.initOf st3 id = init := by
        simp only [State.initOf, Loop.findPhi, g5, hphis, List.map]
        simp only [List.find?, beq_self_eq_true]
        exact rewritePhiSlot_loopInvariant _ _ _ _ _ _ hinit
      rw [hi]
      rcases hopc with hopc | hopc
      · subst hopc; simp [rewriteUses]
      · subst hopc
        simp [rewriteUses_ne_phi]
  · rw [hcl] at h
    simp at h
  · rw [hcl] at h
    simp at h

theorem getIndVar_from (L L1 : Loop) (rpn : Nat) (tc : Value)
    (h : getIndVar L = (L1, .pair rpn tc)) : getIndVarFrom L = (L1, .pair rpn tc) := by
  unfold getIndVar at h
  split at h
  · simp at h
  · split at h
    · split at h
      · simp at h
      · exact h
    · split at h
      · simp at h
      · exact h
  · simp at h

/-- A pair returned by `getIndVar` comes from the canonicalisation of the
loop with the exit comparison oriented as in source lines 353-356. -/
theorem getIndVar_pair (L L1 : Loop) (rpn : Nat) (tc : Value)
    (h : getIndVar L = (L1, .pair rpn tc)) :
    ∃ cmp s0 s1, L.cmpNodeTerm = some (.condBr (some cmp) s0 s1) ∧
      (canonicalize L (if !s0 then { cmp with pred := cmp.pred.inverse } else cmp)).2
        = .pair rpn tc ∧
      L1 = (canonicalize L (if !s0 then { cmp with pred := cmp.pred.inverse } else cmp)).1.finish
        (if !s0 then (s1, s0) else (s0, s1)).1 (if !s0 then (s1, s0) else (s0, s1)).2 := by
  have h1 := getIndVar_from L L1 rpn tc h
  unfold getIndVarFrom at h1
  split at h1
  · simp at h1
  · rename_i cmp s0 s1 hterm
    refine ⟨cmp, s0, s1, hterm, ?_⟩
    cases s0
    · simp only [Bool.not_false, if_true] at h1 ⊢
      split at h1
      · simp at h1
      · simp only [Prod.mk.injEq] at h1
        exact ⟨h1.2, h1.1.symm⟩
    · simp only [Bool.not_true, Bool.false_eq_true, if_false] at h1 ⊢
      split at h1
      · simp at h1
      · simp only [Prod.mk.injEq] at h1
        exact ⟨h1.2, h1.1.symm⟩
  · simp at h1

theorem getIndVar_single (L L1 : Loop) (id : Nat) (init step bound opc0 : Value)
    (pred : Predicate) (s1 : Bool)
    (hphis : L.phis = [⟨id, true, init, .add (.phi id) step⟩])
    (hterm : L.cmpNodeTerm = some (.condBr (some ⟨pred, opc0, bound⟩) true s1))
    (hopc : opc0 = .phi id ∨ opc0 = .add (.phi id) step)
    (hinit : init.loopInvariant = true)
    (hstep : step.loopInvariant = true) (hbound : bound.loopInvariant = true)
    (rpn : Nat) (tc : Value)
    (h : getIndVar L = (L1, .pair rpn tc)) :
    rpn = id ∧ tc = tripQuot L.width pred 1
        (tripDiff L.width pred bound
          (if opc0 ≠ .phi id then createAdd L.width init step else init)) step := by
  obtain ⟨cmp, s0, s2, ht, hc, _⟩ := getIndVar_pair L L1 rpn tc h
  rw [hterm] at ht
  simp only [Option.some.injEq, Terminator.condBr.injEq] at ht
  obtain ⟨hcmp, hs0, _⟩ := ht
  subst hcmp hs0
  simp only [Bool.not_true, Bool.false_eq_true, if_false] at hc
  exact canonicalize_single L id init step bound opc0 pred hphis hopc hinit hstep hbound rpn tc hc

theorem floor_div_int (x s : Int) (hs : 0 < s) : ⌊(x : ℚ) / (s : ℚ)⌋ = x / s := by
  lift s to ℕ using hs.le
  exact_mod_cast Rat.floor_intCast_div_natCast x s

theorem neg_ediv_neg (x s : Int) (hs : 0 < s) : -((-x) / s) = (x - 1) / s + 1 := by
  have h1 := Int.emod_add_ediv (x - 1) s
  have h2 := Int.emod_nonneg (x - 1) (ne_of_gt hs)
  have h3 := Int.emod_lt_of_pos (x - 1) hs
  have h := (Int.ediv_emod_unique (a := -x) (q := -((x - 1) / s) - 1)
    (r := s - (x - 1) % s - 1) hs).2 ⟨by ring_nf; ring_nf at h1; linarith, by omega, by omega⟩
  rw [h.1]; ring

theorem ceil_div_int (x s : Int) (hs : 0 < s) : ⌈(x : ℚ) / (s : ℚ)⌉ = (x - 1) / s + 1 := by
  rw [← neg_ediv_neg x s hs, ← floor_div_int (-x) s hs, ← Int.ceil_neg]
  congr 1
  push_cast
  ring

theorem getIndVar_snd (L : Loop) (rpn : Nat) (tc : Value) (h : (getIndVar L).2 = .pair rpn tc) :
    getIndVar L = ((getIndVar L).1, .pair rpn tc) := by
  rw [← h]

/-- Value of the trip count `getIndVar` returns for a loop with one header PHI
compared, itself or through its increment, as operand 0 of the exit test. -/
theorem getIndVar_single_eval (L : Loop) (id : Nat) (init step bound opc0 : Value)
    (pred : Predicate) (s1 : Bool) (env : Env) (rpn : Nat) (tc : Value)
    (hw : 2 ≤ L.width)
    (hphis : L.phis = [⟨id, true, init, .add (.phi id) step⟩])
    (hterm : L.cmpNodeTerm = some (.condBr (some ⟨pred, opc0, bound⟩) true s1))
    (hopc : opc0 = .phi id ∨ opc0 = .add (.phi id) step)
    (hinit : init.loopInvariant = true)
    (hstep : step.loopInvariant = true) (hbound : bound.loopInvariant = true)
    (hz : direction pred < 0 → isZero bound = false)
    (h : (getIndVar L).2 = .pair rpn tc) :
    eval L.width env tc =
      tripValue L.width pred (decide (opc0 ≠ .phi id)) (eval L.width env init)
        (eval L.width env step) (eval L.width env bound) := by
  obtain ⟨_, htc⟩ := getIndVar_single L _ id init step bound opc0 pred s1 hphis hterm hopc
    hinit hstep hbound rpn tc (getIndVar_snd L rpn tc h)
  have he := tripCount_eval L.width hw env ⟨pred, opc0, bound⟩ (.phi id) opc0 init step hz
  rw [tripCount_fst] at he
  rw [htc]; exact he

/-- C2 (as amended): for an ascending loop whose exit test has the primary
induction PHI as operand 0, a constant positive step `s`, start `a` and bound
`b`, that runs at least one iteration and whose difference `b - a` (read as the
predicate reads the operands) stays below `2 ^ (w - 1)`, the trip count
`getIndVar` returns is `ceil ((b - a) / s)` for `<` and
`floor ((b - a) / s) + 1` for `<=`, signed or unsigned. -/
theorem C2_ascending_trip_count (L : Loop) (id : Nat) (a s : Int) (bound : Value)
    (pred : Predicate) (s1 : Bool) (env : Env) (rpn : Nat) (tc : Value)
    (hw : 2 ≤ L.width)
    (hphis : L.phis = [⟨id, true, .const a, .add (.phi id) (.const s)⟩])
    (hterm : L.cmpNodeTerm = some (.condBr (some ⟨pred, .phi id, bound⟩) true s1))
    (hpred : direction pred = 1)
    (hbound : bound.loopInvariant = true)
    (hs : 0 < s ∧ s < 2 ^ (L.width - 1))
    (hrun : icmp L.width pred (eval L.width env (.const a)) (eval L.width env bound) = true)
    (hfit : readAs L.width pred (eval L.width env bound)
      - readAs L.width pred (eval L.width env (.const a)) < 2 ^ (L.width - 1))
    (h : (getIndVar L).2 = .pair rpn tc) :
    eval L.width env tc =
      if isStrict pred then
        ⌈(((readAs L.width pred (eval L.width env bound)
          - readAs L.width pred (eval L.width env (.const a)) : Int) : ℚ)) / (s : ℚ)⌉
      else
        ⌊(((readAs L.width pred (eval L.width env bound)
          - readAs L.width pred (eval L.width env (.const a)) : Int) : ℚ)) / (s : ℚ)⌋ + 1 := by
  have hw1 : 1 ≤ L.width := by omega
  have hlt := pow_pred_lt L.width hw1
  have hord : direction pred ≠ 0 := by rw [hpred]; decide
  have hdir : ¬ direction pred < 0 := by rw [hpred]; decide
  have hne : pred ≠ .ne := by intro e; subst e; simp [direction] at hpred
  rw [getIndVar_single_eval L id (.const a) (.const s) bound (.phi id) pred s1 env rpn tc hw
    hphis hterm (Or.inl rfl) rfl rfl hbound (fun hd => absurd hd hdir) h]
  have h0 := (icmp_readAs L.width pred hord _ _).1 hrun
  simp only [hdir, if_false] at h0
  generalize hbv : readAs L.width pred (eval L.width env bound) = bv at *
  generalize hav : readAs L.width pred (eval L.width env (.const a)) = av at *
  have hwa : wrap L.width (eval L.width env (.const a)) = wrap L.width av := by
    rw [← hav, wrap_readAs]
  have hwb : wrap L.width (eval L.width env bound) = wrap L.width bv := by
    rw [← hbv, wrap_readAs]
  have hm : toSigned L.width (eval L.width env (.const s)) = s := by
    simp only [eval]
    rw [toSigned_wrap]
    exact toSigned_of_range L.width hw1 s (le_of_lt hs.1) hs.2
  have key := tripValue_of_range L.width hw pred (decide (Value.phi id ≠ Value.phi id))
    (eval L.width env (.const a)) (eval L.width env (.const s)) (eval L.width env bound)
    (bv - av - (if isStrict pred then 1 else 0)) s hne
    (by
      simp only [hdir, if_false, ne_eq, not_true_eq_false, decide_False, Bool.false_eq_true]
      rw [← wrap_sub_wrap, hwa, hwb, wrap_sub_wrap]
      rw [wrap_of_range L.width _ (by split at h0 <;> omega) (by omega)]; ring)
    (by omega) (by split <;> omega)
    (by simp only [hdir, if_false]; exact hm) hs.1
  rw [key]
  split
  · rw [ceil_div_int _ _ hs.1]
  · rw [floor_div_int _ _ hs.1]; simp

/-- Witness of C2: `for (i = 3; i <= 17; i += 2)` is accepted with the trip
count 8, which is `floor ((17 - 3) / 2) + 1`. -/
theorem C2_ascending_trip_count_witness :
    (getIndVar strideTwo).2 = .pair 0 (.const 8) ∧
    eval strideTwo.width (constEnv 0) (.const 8) =
      (if isStrict .sle then
        ⌈(((readAs strideTwo.width .sle (eval strideTwo.width (constEnv 0) (.const 17))
          - readAs strideTwo.width .sle (eval strideTwo.width (constEnv 0) (.const 3)) : Int) : ℚ))
            / ((2 : Int) : ℚ)⌉
      else
        ⌊(((readAs strideTwo.width .sle (eval strideTwo.width (constEnv 0) (.const 17))
          - readAs strideTwo.width .sle (eval strideTwo.width (constEnv 0) (.const 3)) : Int) : ℚ))
            / ((2 : Int) : ℚ)⌋ + 1) :=
  ⟨by decide,
   C2_ascending_trip_count strideTwo 0 3 2 (.const 17) .sle false (constEnv 0) 0 (.const 8)
    (by decide) rfl rfl rfl rfl (by decide) (by decide) (by decide) (by decide)⟩

/-- Counterexample to C2 as stated: the unsigned loop
`for (i = 0; i < 3000000000; i += 2)` on 32 bits runs at least once and no
value leaves the 32 bits, yet the trip count evaluates to 3647483649 and not
to `ceil (3000000000 / 2) = 1500000000`: the division is signed. -/
theorem C2_counterexample_unsigned :
    (getIndVar unsignedStrideTwo).2 =
      .pair 0 (.add (.sdiv (.sub (.arg 0) (.const 1)) (.const 2)) (.const 1)) ∧
    icmp 32 .ult (eval 32 (constEnv 3000000000) (.const 0))
      (eval 32 (constEnv 3000000000) (.arg 0)) = true ∧
    (0 : Int) + 1500000000 * 2 < 2 ^ 32 ∧
    eval 32 (constEnv 3000000000)
      (.add (.sdiv (.sub (.arg 0) (.const 1)) (.const 2)) (.const 1)) = 3647483649 ∧
    ⌈(((3000000000 : Int) - 0 : Int) : ℚ) / ((2 : Int) : ℚ)⌉ = 1500000000 := by
  refine ⟨by decide, by decide, by decide, by decide, ?_⟩
  rw [ceil_div_int _ _ (by decide)]
  decide

/-- C3 (the code at the failing input): for `for (i = 10; i > 0; i -= 1)` the
subtraction is skipped because the bottom, the bound after the swap, is the
literal 0, and the value kept is the bound, not the top: `getIndVar` returns
the trip count 0, while the loop executes 10 iterations. -/
theorem C3_descending_literal_zero_bound :
    (getIndVar descendingToZero).2 = .pair 0 (.const 0) ∧
    tripDiff 32 .sgt (.const 0) (.const 10) = .const (-1) ∧
    iterations 32 .sgt false (eval 32 (constEnv 0) (.const 10))
      (eval 32 (constEnv 0) (.const (-1))) (eval 32 (constEnv 0) (.const 0)) 11 0 = some 10 := by
  decide

/-- C4: when the exit test compares the increment of the primary induction
PHI, the trip count `getIndVar` returns is built with bottom `init + step`;
for start 0, step 1 and the test `increment < n` it evaluates to `n - 1` modulo
`2 ^ width`, for every `n`. -/
theorem C4_increment_compared (L : Loop) (id : Nat) (init step n : Value)
    (pred : Predicate) (s1 : Bool) (rpn : Nat) (tc : Value)
    (hphis : L.phis = [⟨id, true, init, .add (.phi id) step⟩])
    (hterm : L.cmpNodeTerm = some (.condBr (some ⟨pred, .add (.phi id) step, n⟩) true s1))
    (hinit : init.loopInvariant = true)
    (hstep : step.loopInvariant = true) (hn : n.loopInvariant = true)
    (h : (getIndVar L).2 = .pair rpn tc) :
    rpn = id ∧
    tc = tripQuot L.width pred 1 (tripDiff L.width pred n (createAdd L.width init step)) step ∧
    (init = .const 0 → step = .const 1 → pred = .slt ∨ pred = .ult →
      ∀ env : Env, eval L.width env tc = wrap L.width (eval L.width env n - 1)) := by
  obtain ⟨h1, h2⟩ := getIndVar_single L _ id init step n (.add (.phi id) step) pred s1 hphis
    hterm (Or.inr rfl) hinit hstep hn rpn tc (getIndVar_snd L rpn tc h)
  have hne : Value.add (.phi id) step ≠ .phi id := by simp
  rw [if_pos hne] at h2
  refine ⟨h1, h2, ?_⟩
  intro hi hst hp env
  subst hi hst
  have hd : ¬ direction pred < 0 := by rcases hp with hp | hp <;> subst hp <;> decide
  have hstr : isStrict pred = true := by rcases hp with hp | hp <;> subst hp <;> rfl
  have hpne : pred ≠ .ne := by rcases hp with hp | hp <;> subst hp <;> decide
  have hq : tripQuot L.width pred 1
      (tripDiff L.width pred n (createAdd L.width (.const 0) (.const 1))) (.const 1) =
      addOne L.width (tripDiff L.width pred n (createAdd L.width (.const 0) (.const 1))) := by
    rcases hp with hp | hp <;> subst hp <;> simp [tripQuot, negateStep, isOne, getInt]
  rw [h2, hq, eval_addOne, eval_tripDiff L.width env pred n _ (fun hdn => absurd hdn hd)]
  simp only [hstr, hd, if_true, if_false, eval_createAdd, eval]
  rw [wrap_add_left, sub_add_cancel, wrap_wrap, wrap_sub_right, zero_add, ← wrap_sub_wrap,
    wrap_toSigned, wrap_sub_wrap]

/-- Witness of C4: `for (i = 0; ++i < n; )`. -/
theorem C4_increment_compared_witness :
    (getIndVar incrementCompared).2 =
      .pair 0 (.add (.sub (.sub (.arg 0) (.const 1)) (.const 1)) (.const 1)) ∧
    (0 = 0 ∧
    Value.add (.sub (.sub (.arg 0) (.const 1)) (.const 1)) (.const 1) =
      tripQuot incrementCompared.width .slt 1
        (tripDiff incrementCompared.width .slt (.arg 0)
          (createAdd incrementCompared.width (.const 0) (.const 1))) (.const 1) ∧
    (Value.const 0 = .const 0 → Value.const 1 = .const 1 →
      Predicate.slt = .slt ∨ Predicate.slt = .ult →
      ∀ env : Env, eval incrementCompared.width env
        (.add (.sub (.sub (.arg 0) (.const 1)) (.const 1)) (.const 1)) =
        wrap incrementCompared.width (eval incrementCompared.width env (.arg 0) - 1))) :=
  ⟨by decide,
   C4_increment_compared incrementCompared 0 (.const 0) (.const 1) (.arg 0) .slt false 0
    (.add (.sub (.sub (.arg 0) (.const 1)) (.const 1)) (.const 1)) rfl rfl rfl rfl rfl
    (by decide)⟩

theorem getIndVarFrom_eq (L : Loop) (cmp : CmpInst) (s0 s1 : Bool)
    (hterm : L.cmpNodeTerm = some (.condBr (some cmp) s0 s1))
    (heq : (if s0 = true then cmp.pred else cmp.pred.inverse) = .eq) :
    (getIndVarFrom L).2 = .null := by
  unfold getIndVarFrom
  rw [hterm]
  cases s0
  · simp only [Bool.false_eq_true, if_false] at heq
    simp [heq]
  · simp only [if_true] at heq
    simp [heq]

/-- C5 (as amended): `getIndVar` returns the null pair for every loop whose
exit comparison, once oriented so that the true successor is inside the loop,
has the predicate `==`. -/
theorem C5_equality_rejected (L : Loop) (cmp : CmpInst) (s0 s1 : Bool)
    (hp : L.headerPreds ≠ [])
    (hterm : L.cmpNodeTerm = some (.condBr (some cmp) s0 s1))
    (heq : (if s0 = true then cmp.pred else cmp.pred.inverse) = .eq) :
    (getIndVar L).2 = .null := by
  have hf := getIndVarFrom_eq L cmp s0 s1 hterm heq
  unfold getIndVar
  split
  · rename_i hnil; exact absurd hnil hp
  · split
    · split
      · rfl
      · exact hf
    · split
      · rfl
      · exact hf
  · rfl

/-- Witness of C5: `for (i = 0; i == n; i += 1)` is rejected. -/
theorem C5_equality_rejected_witness :
    (if true = true then Predicate.eq else Predicate.eq.inverse) = .eq ∧
    (getIndVar equalExit).2 = .null :=
  ⟨by decide,
   C5_equality_rejected equalExit ⟨.eq, .phi 0, .arg 0⟩ true false (by decide) rfl (by decide)⟩

/-- Counterexample to C5 as stated: the exit test `i != n` of
`for (i = 0; i != n; i += k)`, whose true successor is in the loop, is accepted:
`getIndVar` returns the PHI and the trip count `n / k`. -/
theorem C5_counterexample_not_equal :
    notEqualExit.cmpNodeTerm = some (.condBr (some ⟨.ne, .phi 0, .arg 0⟩) true false) ∧
    (getIndVar notEqualExit).2 = .pair 0 (.sdiv (.arg 0) (.arg 1)) := by
  decide

/-- C8 (the code at the failing input): a loop framed by detach and sync whose
induction variable, and so whose trip count, has 16 bits passes every check of
`runOnLoop` and then fails the assertion of line 1006; it is not rejected with
`false`.  Widths 32 and 64 select `__cilkrts_cilk_for_32` and
`__cilkrts_cilk_for_64`. -/
theorem C8_width_sixteen_asserts :
    (getIndVar (unitStride 16)).2 =
      .pair 0 (.add (.sub (.arg 0) (.const 1)) (.const 1)) ∧
    (runOnLoop (framedInput (unitStride 16)) 1).map (fun o => o.result) = some .assertFailed ∧
    (runOnLoop (framedInput (unitStride 32)) 1).map (fun o => (o.result, o.callee)) =
      some (.returned true, some .cilk_for_32) ∧
    (runOnLoop (framedInput (unitStride 64)) 1).map (fun o => (o.result, o.callee)) =
      some (.returned true, some .cilk_for_64) := by
  decide

/-- C9 (the code at the failing input): the entry branch has one successor,
which does not end in a detach, and the walk from the true exit reaches a block
ending in a sync: the assertion of line 784 fails; `runOnLoop` does not return
`false`. -/
theorem C9_single_successor_asserts :
    (singleSuccessorInput.blocks singleSuccessorInput.header).succs = [1] ∧
    (singleSuccessorInput.blocks 1).term = .branch ∧
    walkToSync singleSuccessorInput.blocks 1 singleSuccessorInput.trueExit = some (some 2) ∧
    (runOnLoop singleSuccessorInput 1).map (fun o => o.result) = some .assertFailed := by
  decide

/-- The increment of the secondary induction variable under rewrite is never
erased: `others` still holds its own entry, so `replacable` is false. -/
theorem eraseIncrement_of_mem (st : State) (a : Secondary) (h : a ∈ st.others) :
    eraseIncrement st a = st := by
  unfold eraseIncrement
  split
  · have hany : st.others.any (fun tup => tup.inc == a.inc || tup.step == a.inc) = true := by
      rw [List.any_eq_true]
      exact ⟨a, h, by simp⟩
    simp [hany]
  · rfl

/-- C7 (the code at the failing input): after `getIndVar` on the loop with
`i` from 0 by 1 and `j` from 100 by -3, the uses of `j` are `100 + (-3) * i`
and the PHI of `j` is erased, but the increment of `j` is still in the
function although nothing uses it. -/
theorem C7_increment_is_kept :
    (getIndVar secondaryLoop).2 = .pair 0 (.add (.sub (.arg 0) (.const 1)) (.const 1)) ∧
    (getIndVar secondaryLoop).1.findPhi 1 = none ∧
    (getIndVar secondaryLoop).1.body =
      [.add (.phi 0) (.const 1),
       .add (.add (.mul (.phi 0) (.const (-3))) (.const 100)) (.const (-3)),
       .mul (.add (.mul (.phi 0) (.const (-3))) (.const 100)) (.arg 5)] ∧
    (getIndVar secondaryLoop).1.getNumUses
      (.add (.add (.mul (.phi 0) (.const (-3))) (.const 100)) (.const (-3))) = 0 := by
  decide

theorem find_map_phi (phis : List PhiNode) (id : Nat) (f : PhiNode → PhiNode)
    (hf : ∀ q, (f q).id = q.id) :
    (phis.map f).find? (fun p => p.id == id) = (phis.find? (fun p => p.id == id)).map f := by
  induction phis with
  | nil => rfl
  | cons q qs ih =>
    simp only [List.map, List.find?, hf]
    cases h : (q.id == id)
    · simpa using ih
    · simp

theorem findPhi_mapValues (st : State) (f g : Value → Value) (id : Nat) :
    (st.mapValues f g).loop.findPhi id =
      (st.loop.findPhi id).map (fun (p : PhiNode) => { p with init := f p.init, back := f p.back }) := by
  simp only [Loop.findPhi, State.mapValues]
  exact find_map_phi _ _ _ (fun _ => rfl)

theorem findPhi_erasePhi (st : State) (j id : Nat) (h : id ≠ j) :
    (st.erasePhi j).loop.findPhi id = st.loop.findPhi id := by
  simp only [Loop.findPhi, State.erasePhi]
  induction st.loop.phis with
  | nil => rfl
  | cons q qs ih =>
    simp only [List.filter]
    by_cases hq : q.id = j
    · have hne : (q.id == id) = false := by
        simp only [beq_eq_false_iff_ne, ne_eq]; intro e; exact h (e ▸ hq)
      have hf : (q.id != j) = false := by simp [hq]
      simp only [hf, List.find?, hne]
      exact ih
    · have : (q.id != j) = true := by simp [hq]
      simp only [this, List.find?]
      cases (q.id == id) <;> simp [ih]

theorem pivOk_mapValues (st : State) (seen : List Nat) (f g : Value → Value)
    (h : PivOk st seen)
    (hpiv : ∀ p a b, st.piv = some p → p.incr = .add a b →
      (a = .phi p.rpn ∨ b = .phi p.rpn) →
      f (.add a b) = g (.add a b) ∧
        ∃ a1 b1, g (.add a b) = .add a1 b1 ∧ (a1 = .phi p.rpn ∨ b1 = .phi p.rpn)) :
    PivOk (st.mapValues f g) seen := by
  obtain ⟨ho, hp⟩ := h
  refine ⟨?_, ?_⟩
  · intro s hs
    simp only [State.mapValues, List.mem_map] at hs
    obtain ⟨t, ht, rfl⟩ := hs
    exact ho t ht
  · intro p2 hp2
    simp only [State.mapValues, Option.map_eq_some'] at hp2
    obtain ⟨p, hpe, rfl⟩ := hp2
    obtain ⟨h1, h2, h3, ⟨q, hq, hqb⟩, ⟨a, b, hab, hor⟩⟩ := hp p hpe
    obtain ⟨hfg, a1, b1, hg, hor1⟩ := hpiv p a b hpe hab hor
    refine ⟨h1, h2, ?_, ?_, ?_⟩
    · intro s hs
      simp only [State.mapValues, List.mem_map] at hs
      obtain ⟨t, ht, rfl⟩ := hs
      exact h3 t ht
    · refine ⟨{ q with init := f q.init, back := f q.back }, ?_, ?_⟩
      · rw [findPhi_mapValues, hq]; rfl
      · simp only [hqb, hab, hfg]
    · exact ⟨a1, b1, by simp only [hab, hg], hor1⟩

theorem replaceUses_phi (old new : Value) (r : Nat) (h : old ≠ .phi r) :
    replaceUses old new (.phi r) = .phi r := by
  simp only [replaceUses]
  rw [if_neg (fun e => h e.symm)]

theorem pivOk_rauw (st : State) (seen : List Nat) (old new : Value) (h : PivOk st seen)
    (hold : ∀ a b, old ≠ .add a b) (hphi : ∀ p, st.piv = some p → old ≠ .phi p.rpn) :
    PivOk (st.rauw old new) seen := by
  apply pivOk_mapValues st seen _ _ h
  intro p a b hp _ hor
  have hne : Value.add a b ≠ old := fun e => hold a b e.symm
  refine ⟨by simp [replaceUses, replaceInside, hne], ?_⟩
  refine ⟨replaceUses old new a, replaceUses old new b, by simp [replaceInside], ?_⟩
  rcases hor with e | e
  · left; rw [e]; exact replaceUses_phi old new p.rpn (hphi p hp)
  · right; rw [e]; exact replaceUses_phi old new p.rpn (hphi p hp)

theorem pivOk_mutate_swap (st : State) (seen : List Nat) (x : Value) (pn : Nat)
    (h : PivOk st seen) (hpn : ∀ p, st.piv = some p → p.rpn ≠ pn) :
    PivOk (st.mutate (.add x (.phi pn)) (.add (.phi pn) x)) seen := by
  apply pivOk_mapValues st seen _ _ h
  intro p a b hp _ hor
  refine ⟨rfl, ?_⟩
  by_cases he : Value.add a b = .add x (.phi pn)
  · refine ⟨.phi pn, x, by simp [replaceUses, he], ?_⟩
    simp only [Value.add.injEq] at he
    obtain ⟨ha, hb⟩ := he
    rcases hor with e | e
    · right; rw [← ha, e]
    · exfalso
      rw [hb] at e
      simp only [Value.phi.injEq] at e
      exact hpn p hp e.symm
  · have hold : Value.add x (.phi pn) ≠ .phi p.rpn := by simp
    refine ⟨replaceUses (.add x (.phi pn)) (.add (.phi pn) x) a,
      replaceUses (.add x (.phi pn)) (.add (.phi pn) x) b, by simp [replaceUses, he], ?_⟩
    rcases hor with e | e
    · left; rw [e]; exact replaceUses_phi _ _ p.rpn hold
    · right; rw [e]; exact replaceUses_phi _ _ p.rpn hold

theorem pivOk_of_fields (st st1 : State) (seen : List Nat) (h : PivOk st seen)
    (ho : ∀ s ∈ st1.others, ∃ t ∈ st.others, t.phi = s.phi)
    (hp : st1.piv = st.piv) (hc : st1.cmpIdx = st.cmpIdx)
    (hf : ∀ id, st1.loop.findPhi id = st.loop.findPhi id) : PivOk st1 seen := by
  obtain ⟨h1, h2⟩ := h
  refine ⟨?_, ?_⟩
  · intro s hs
    obtain ⟨t, ht, hts⟩ := ho s hs
    rw [← hts]; exact h1 t ht
  · intro p hpp
    rw [hp] at hpp
    obtain ⟨g1, g2, g3, g4, g5⟩ := h2 p hpp
    refine ⟨by rw [hc]; exact g1, g2, ?_, by rw [hf]; exact g4, g5⟩
    intro s hs
    obtain ⟨t, ht, hts⟩ := ho s hs
    rw [← hts]; exact g3 t ht

theorem pivOk_mono (st : State) (seen : List Nat) (pn : Nat) (h : PivOk st seen) :
    PivOk st (pn :: seen) := by
  obtain ⟨h1, h2⟩ := h
  refine ⟨fun s hs => List.mem_cons_of_mem _ (h1 s hs), ?_⟩
  intro p hp
  obtain ⟨g1, g2, g3, g4, g5⟩ := h2 p hp
  exact ⟨g1, List.mem_cons_of_mem _ g2, g3, g4, g5⟩

theorem recordInduction_next (st st1 : State) (pn : Nat) (inc step : Value)
    (hr : recordInduction st pn inc step = .next st1) :
    st1.loop = st.loop ∧
    ((st1.cmpIdx = 1 ∧ (∃ opc, st1.piv = some ⟨pn, inc, step, opc⟩) ∧ st1.others = st.others) ∨
     (st1.cmpIdx = st.cmpIdx ∧ st1.piv = st.piv ∧ st1.others = st.others ++ [⟨pn, inc, step⟩])) := by
  unfold recordInduction at hr
  simp only [State.initOf] at hr
  generalize decide (uncast st.cmp.op0 = Value.phi pn) = r0 at hr
  generalize decide (uncast st.cmp.op1 = Value.phi pn) = r1 at hr
  generalize decide (uncast st.cmp.op0 = inc) = i0 at hr
  generalize decide (uncast st.cmp.op1 = inc) = i1 at hr
  cases r0 <;> cases r1 <;> cases i0 <;> cases i1 <;> simp at hr <;>
    (split at hr <;> try (split at hr)) <;> simp at hr <;> subst hr <;> simp

theorem recordInduction_pivOk (st st1 : State) (seen : List Nat) (pn : Nat) (inc step : Value)
    (h : PivOk st seen) (hpn : pn ∉ seen)
    (hq : ∃ q, st.loop.findPhi pn = some q ∧ q.back = inc)
    (hshape : ∃ a b, inc = .add a b ∧ (a = .phi pn ∨ b = .phi pn))
    (hr : recordInduction st pn inc step = .next st1) : PivOk st1 (pn :: seen) := by
  obtain ⟨h1, h2⟩ := h
  obtain ⟨hl, hcase⟩ := recordInduction_next st st1 pn inc step hr
  rcases hcase with ⟨hc, ⟨opc, hp⟩, ho⟩ | ⟨hc, hp, ho⟩
  · refine ⟨fun s hs => List.mem_cons_of_mem _ (h1 s (ho ▸ hs)), ?_⟩
    intro p hpp
    rw [hp] at hpp
    simp only [Option.some.injEq] at hpp
    subst hpp
    refine ⟨hc, List.mem_cons_self _ _, ?_, by rw [hl]; exact hq, hshape⟩
    intro s hs e
    rw [ho] at hs
    exact hpn (by simpa [e] using h1 s hs)
  · refine ⟨?_, ?_⟩
    · intro s hs
      rw [ho] at hs
      simp only [List.mem_append, List.mem_singleton] at hs
      rcases hs with hs | hs
      · exact List.mem_cons_of_mem _ (h1 s hs)
      · subst hs; exact List.mem_cons_self _ _
    · intro p hpp
      rw [hp] at hpp
      obtain ⟨g1, g2, g3, g4, g5⟩ := h2 p hpp
      refine ⟨by rw [hc]; exact g1, List.mem_cons_of_mem _ g2, ?_, by rw [hl]; exact g4, g5⟩
      intro s hs
      rw [ho] at hs
      simp only [List.mem_append, List.mem_singleton] at hs
      rcases hs with hs | hs
      · exact g3 s hs
      · subst hs
        intro e
        simp only at e
        exact hpn (e ▸ g2)

theorem replaceUses_self (old new : Value) : replaceUses old new old = new := by
  cases old <;> simp [replaceUses]

theorem normalizeSub_pivOk (st : State) (seen : List Nat) (pn : Nat) (back : Value)
    (h : PivOk st seen) (hq : ∃ q, st.loop.findPhi pn = some q ∧ q.back = back) :
    PivOk (normalizeSub st pn back).1 seen ∧
      ∃ q, (normalizeSub st pn back).1.loop.findPhi pn = some q ∧
        q.back = (normalizeSub st pn back).2 := by
  unfold normalizeSub
  split
  · rename_i a b
    split
    · simp only
      have h1 : PivOk (st.rauw (.sub a b) (createAdd st.loop.width (.phi pn)
          (createNeg st.loop.width b))) seen :=
        pivOk_rauw st seen _ _ h (by intro x y; simp) (by intro p _; simp)
      refine ⟨?_, ?_⟩
      · apply pivOk_of_fields _ _ seen h1
        · intro s hs
          simp only [State.eraseInst, List.mem_map] at hs
          obtain ⟨t, ht, rfl⟩ := hs
          exact ⟨t, ht, rfl⟩
        · rfl
        · rfl
        · intro id; rfl
      · obtain ⟨q, hq1, hq2⟩ := hq
        have hm := findPhi_mapValues st (replaceUses (.sub a b) (createAdd st.loop.width (.phi pn)
            (createNeg st.loop.width b))) (replaceInside (.sub a b) (createAdd st.loop.width
            (.phi pn) (createNeg st.loop.width b))) pn
        rw [hq1] at hm
        refine ⟨_, hm, ?_⟩
        simp only [hq2]
        exact replaceUses_self _ _
    · exact ⟨h, hq⟩
  · exact ⟨h, hq⟩


theorem findPhi_mutate_back (st : State) (pn : Nat) (old new : Value)
    (hq : ∃ q, st.loop.findPhi pn = some q ∧ q.back = old) :
    ∃ q, (st.mutate old new).loop.findPhi pn = some q ∧ q.back = new := by
  obtain ⟨q, hq1, hq2⟩ := hq
  have hm := findPhi_mapValues st (replaceUses old new) (replaceUses old new) pn
  rw [hq1] at hm
  refine ⟨_, hm, ?_⟩
  simp only [hq2]
  exact replaceUses_self _ _

theorem classifyPhi_pivOk (st st1 : State) (seen : List Nat) (pn : Nat)
    (h : PivOk st seen) (hpn : pn ∉ seen) (hr : classifyPhi st pn = .next st1) :
    PivOk st1 (pn :: seen) := by
  unfold classifyPhi at hr
  split at hr
  · simp only [Flow.next.injEq] at hr
    subst hr; exact pivOk_mono st seen pn h
  · rename_i p hfind
    split at hr
    · simp at hr
    · split at hr
      · obtain ⟨hn1, hn2⟩ := normalizeSub_pivOk st seen pn p.back h ⟨p, hfind, rfl⟩
        generalize normalizeSub st pn p.back = ns at hr hn1 hn2
        obtain ⟨st2, inc⟩ := ns
        simp only at hr hn1 hn2
        split at hr
        · rename_i a b
          split at hr
          · rename_i hor
            split at hr
            · rename_i hb
              subst hb
              have hnp : ∀ q, st2.piv = some q → q.rpn ≠ pn := by
                intro q hq e
                exact hpn (e ▸ (hn1.2 q hq).2.1)
              exact recordInduction_pivOk _ st1 seen pn (.add (.phi pn) a) a
                (pivOk_mutate_swap st2 seen a pn hn1 hnp) hpn
                (findPhi_mutate_back st2 pn _ _ hn2) ⟨.phi pn, a, rfl, Or.inl rfl⟩ hr
            · rename_i hb
              have ha : a = .phi pn := by
                rcases hor with e | e
                · exact e
                · exact absurd e hb
              exact recordInduction_pivOk st2 st1 seen pn (.add a b) b hn1 hpn hn2
                ⟨a, b, rfl, Or.inl ha⟩ hr
          · simp at hr
        · simp at hr
      · simp only [Flow.next.injEq] at hr
        subst hr; exact pivOk_mono st seen pn h

theorem classifyPhis_pivOk (ids : List Nat) :
    ∀ (st st1 : State) (seen : List Nat), PivOk st seen → ids.Nodup →
      (∀ i ∈ ids, i ∉ seen) → classifyPhis st ids = .next st1 →
      ∃ seen1, PivOk st1 seen1 := by
  induction ids with
  | nil =>
    intro st st1 seen h _ _ hr
    simp only [classifyPhis, Flow.next.injEq] at hr
    subst hr; exact ⟨seen, h⟩
  | cons pn rest ih =>
    intro st st1 seen h hnd hns hr
    unfold classifyPhis at hr
    split at hr
    · rename_i st2 hc
      have h2 := classifyPhi_pivOk st st2 seen pn h (hns pn (List.mem_cons_self _ _)) hc
      rw [List.nodup_cons] at hnd
      apply ih st2 st1 (pn :: seen) h2 hnd.2 _ hr
      intro i hi hmem
      rcases List.mem_cons.1 hmem with e | e
      · subst e; exact hnd.1 hi
      · exact hns i (List.mem_cons_of_mem _ hi) e
    · simp at hr

theorem secondaryExpr_fields (st : State) (rpn : Value) (a : Secondary) :
    (secondaryExpr st rpn a).2.loop = st.loop ∧ (secondaryExpr st rpn a).2.cmp = st.cmp
      ∧ (secondaryExpr st rpn a).2.cmpIdx = st.cmpIdx ∧ (secondaryExpr st rpn a).2.piv = st.piv
      ∧ (secondaryExpr st rpn a).2.others = st.others
      ∧ (secondaryExpr st rpn a).2.newV = st.newV := by
  have hi : ∀ (c : Prop) [Decidable c] (s : State) (v : Value),
      (if c then s.ignore v else s).loop = s.loop ∧ (if c then s.ignore v else s).cmp = s.cmp
      ∧ (if c then s.ignore v else s).cmpIdx = s.cmpIdx ∧ (if c then s.ignore v else s).piv = s.piv
      ∧ (if c then s.ignore v else s).others = s.others
      ∧ (if c then s.ignore v else s).newV = s.newV := by
    intro c _ s v
    split <;> simp [State.ignore]
  unfold secondaryExpr
  simp only
  generalize hv1 : createSExtOrTrunc rpn = v1
  obtain ⟨a1, a2, a3, a4, a5, a6⟩ := hi (v1 ≠ rpn) st v1
  generalize (if v1 ≠ rpn then st.ignore v1 else st) = s1 at *
  generalize (if (!isOne a.step) = true then createMul s1.loop.width v1 a.step else v1) = v2
  obtain ⟨b1, b2, b3, b4, b5, b6⟩ := hi (v2 ≠ rpn) s1 v2
  generalize (if v2 ≠ rpn then s1.ignore v2 else s1) = s2 at *
  generalize (if (!isZero (s2.initOf a.phi)) = true then createAdd s2.loop.width v2 (s2.initOf a.phi)
    else v2) = v3
  obtain ⟨c1, c2, c3, c4, c5, c6⟩ := hi (v3 ≠ rpn) s2 v3
  generalize (if v3 ≠ rpn then s2.ignore v3 else s2) = s3 at *
  exact ⟨by rw [c1, b1, a1], by rw [c2, b2, a2], by rw [c3, b3, a3], by rw [c4, b4, a4],
    by rw [c5, b5, a5], by rw [c6, b6, a6]⟩

theorem pivOk_erasePhi (st : State) (seen : List Nat) (j : Nat) (h : PivOk st seen)
    (hj : ∀ p, st.piv = some p → p.rpn ≠ j) : PivOk (st.erasePhi j) seen := by
  obtain ⟨h1, h2⟩ := h
  refine ⟨h1, ?_⟩
  intro p hp
  obtain ⟨g1, g2, g3, g4, g5⟩ := h2 p hp
  refine ⟨g1, g2, g3, ?_, g5⟩
  rw [findPhi_erasePhi st j p.rpn (hj p hp)]
  exact g4

theorem pivOk_eraseIncrement (st : State) (seen : List Nat) (a : Secondary)
    (h : PivOk st seen) : PivOk (eraseIncrement st a) seen := by
  unfold eraseIncrement
  split
  · simp only
    split
    · exact pivOk_of_fields st _ seen h (fun s hs => ⟨s, hs, rfl⟩) rfl rfl (fun _ => rfl)
    · exact h
  · exact h

theorem rewriteSecondary_pivOk (st st1 : State) (seen : List Nat) (rpn : Value) (i : Nat)
    (h : PivOk st seen) (hr : rewriteSecondary st rpn i = .next st1) : PivOk st1 seen := by
  unfold rewriteSecondary at hr
  split at hr
  · simp only [Flow.next.injEq] at hr
    subst hr; exact h
  · rename_i a ha
    obtain ⟨f1, f2, f3, f4, f5, f6⟩ := secondaryExpr_fields st rpn a
    generalize secondaryExpr st rpn a = e at hr f1 f2 f3 f4 f5 f6
    obtain ⟨val, st2⟩ := e
    simp only at hr f1 f2 f3 f4 f5 f6
    have h2 : PivOk st2 seen :=
      pivOk_of_fields st st2 seen h (fun s hs => ⟨s, f5 ▸ hs, rfl⟩) f4 f3
        (fun id => by rw [f1])
    have hmem : a ∈ st2.others := by
      rw [f5]; exact List.get?_mem ha
    have hne : ∀ p, st2.piv = some p → p.rpn ≠ a.phi := by
      intro p hp e
      exact (h2.2 p hp).2.2.1 a hmem e.symm
    split at hr
    · simp at hr
    · have h3 : PivOk (st2.rauw (.phi a.phi) val) seen :=
        pivOk_rauw st2 seen _ _ h2 (by intro x y; simp)
          (by intro p hp e; simp only [Value.phi.injEq] at e; exact hne p hp e.symm)
      have hne3 : ∀ p, (st2.rauw (.phi a.phi) val).piv = some p → p.rpn ≠ a.phi := by
        intro p hp
        simp only [State.rauw, State.mapValues, Option.map_eq_some'] at hp
        obtain ⟨p0, hp0, rfl⟩ := hp
        exact hne p0 hp0
      have h4 := pivOk_erasePhi _ seen a.phi h3 hne3
      split at hr
      · simp only [Flow.next.injEq] at hr
        subst hr; exact h4
      · simp only [Flow.next.injEq] at hr
        subst hr; exact pivOk_eraseIncrement _ seen _ h4

theorem rewriteSecondaries_pivOk (rpn : Value) (idx : List Nat) :
    ∀ (st st1 : State) (seen : List Nat), PivOk st seen →
      rewriteSecondaries st rpn idx = .next st1 → PivOk st1 seen := by
  induction idx with
  | nil =>
    intro st st1 seen h hr
    simp only [rewriteSecondaries, Flow.next.injEq] at hr
    subst hr; exact h
  | cons i rest ih =>
    intro st st1 seen h hr
    unfold rewriteSecondaries at hr
    split at hr
    · rename_i st2 hc
      exact ih st2 st1 seen (rewriteSecondary_pivOk st st2 seen rpn i h hc) hr
    · simp at hr

theorem recordInduction_ret (st st1 : State) (pn : Nat) (inc step : Value) (r : IndVar)
    (hr : recordInduction st pn inc step = .ret st1 r) : r = .null ∨ r = .abort := by
  unfold recordInduction at hr
  simp only [State.initOf] at hr
  generalize decide (uncast st.cmp.op0 = Value.phi pn) = r0 at hr
  generalize decide (uncast st.cmp.op1 = Value.phi pn) = r1 at hr
  generalize decide (uncast st.cmp.op0 = inc) = i0 at hr
  generalize decide (uncast st.cmp.op1 = inc) = i1 at hr
  cases r0 <;> cases r1 <;> cases i0 <;> cases i1 <;> simp at hr <;>
    first
    | exact Or.inr hr.2.symm
    | (split at hr <;> try (split at hr)) <;> simp at hr <;>
        first
        | exact Or.inl hr.2.symm
        | exact Or.inr hr.2.symm

theorem classifyPhi_ret (st st1 : State) (pn : Nat) (r : IndVar)
    (hr : classifyPhi st pn = .ret st1 r) : r = .null ∨ r = .abort := by
  unfold classifyPhi at hr
  split at hr
  · simp at hr
  · split at hr
    · simp only [Flow.ret.injEq] at hr; exact Or.inl hr.2.symm
    · split at hr
      · generalize normalizeSub st pn _ = ns at hr
        obtain ⟨st2, inc⟩ := ns
        simp only at hr
        split at hr
        · split at hr
          · split at hr
            · exact recordInduction_ret _ _ _ _ _ _ hr
            · exact recordInduction_ret _ _ _ _ _ _ hr
          · simp only [Flow.ret.injEq] at hr; exact Or.inl hr.2.symm
        · simp only [Flow.ret.injEq] at hr; exact Or.inl hr.2.symm
      · simp at hr

theorem classifyPhis_ret (ids : List Nat) :
    ∀ (st st1 : State) (r : IndVar), classifyPhis st ids = .ret st1 r →
      r = .null ∨ r = .abort := by
  induction ids with
  | nil => intro st st1 r hr; simp [classifyPhis] at hr
  | cons pn rest ih =>
    intro st st1 r hr
    unfold classifyPhis at hr
    split at hr
    · exact ih _ _ _ hr
    · rename_i st2 r2 hc
      simp only [Flow.ret.injEq] at hr
      rw [← hr.2]
      exact classifyPhi_ret st st2 pn r2 hc

theorem rewriteSecondary_ret (st st1 : State) (rpn : Value) (i : Nat) (r : IndVar)
    (hr : rewriteSecondary st rpn i = .ret st1 r) : r = .abort := by
  unfold rewriteSecondary at hr
  split at hr
  · simp at hr
  · generalize secondaryExpr st rpn _ = e at hr
    obtain ⟨val, st2⟩ := e
    simp only at hr
    split at hr
    · simp only [Flow.ret.injEq] at hr; exact hr.2.symm
    · split at hr <;> simp at hr

theorem rewriteSecondaries_ret (rpn : Value) (idx : List Nat) :
    ∀ (st st1 : State) (r : IndVar), rewriteSecondaries st rpn idx = .ret st1 r → r = .abort := by
  induction idx with
  | nil => intro st st1 r hr; simp [rewriteSecondaries] at hr
  | cons i rest ih =>
    intro st st1 r hr
    unfold rewriteSecondaries at hr
    split at hr
    · exact ih _ _ _ hr
    · rename_i st2 r2 hc
      simp only [Flow.ret.injEq] at hr
      rw [← hr.2]
      exact rewriteSecondary_ret st st2 rpn i r2 hc

theorem pivOk_init (L : Loop) (cmp : CmpInst) (st : State)
    (hst : st = ⟨L, cmp, -1, none, [], [], none⟩) : PivOk st [] := by
  subst hst
  refine ⟨?_, ?_⟩
  · intro s hs; simp at hs
  · intro p hp; simp at hp

theorem useAction_incr (st : State) (p : Piv) : useAction st p p.incr = .setStep := by
  simp [useAction]

theorem find_map_init (phis : List PhiNode) (r : Nat) (c : Value) (q : PhiNode)
    (h : phis.find? (fun p => p.id == r) = some q) :
    (phis.map (fun (q : PhiNode) => if q.id = r then { q with init := c } else q)).find?
      (fun p => p.id == r) = some { q with init := c } := by
  induction phis with
  | nil => simp at h
  | cons x xs ih =>
    simp only [List.map, List.find?] at h ⊢
    by_cases hx : x.id = r
    · simp only [hx, beq_self_eq_true, Option.some.injEq] at h
      subst h
      simp [hx]
    · have hb : (x.id == r) = false := by simp [hx]
      simp only [hb] at h
      simp only [hx, if_false, hb]
      exact ih h

/-- The canonical form of the loop when `getIndVar` returns a pair: the exit
comparison is `PHI != trip count`, the PHI starts at 0 and operand 1 of its
backedge value is 1. -/
theorem canonicalize_canonical (L : Loop) (cmp : CmpInst) (rpn : Nat) (tc : Value)
    (hnd : (L.phis.map (fun p => p.id)).Nodup)
    (h : (canonicalize L cmp).2 = .pair rpn tc) :
    (canonicalize L cmp).1.cmp = ⟨.ne, .phi rpn, tc⟩ ∧
    ∃ q a, (canonicalize L cmp).1.loop.findPhi rpn = some q ∧
      q.init = constInt (canonicalize L cmp).1.loop.width 0 ∧
      q.back = .add a (constInt (canonicalize L cmp).1.loop.width 1) := by
  suffices key : ∀ res : State × IndVar, canonicalize L cmp = res → res.2 = .pair rpn tc →
      res.1.cmp = ⟨.ne, .phi rpn, tc⟩ ∧
      ∃ q a, res.1.loop.findPhi rpn = some q ∧ q.init = constInt res.1.loop.width 0 ∧
        q.back = .add a (constInt res.1.loop.width 1) from key _ rfl h
  intro res hres h
  unfold canonicalize at hres
  simp only at hres
  generalize hst0 : State.mk L cmp (-1) none [] [] none = st0 at hres
  have h0 := pivOk_init L cmp st0 hst0.symm
  cases hcl : classifyPhis st0 (L.phis.map (fun p => p.id)) with
  | ret st r =>
    rw [hcl] at hres
    simp only at hres
    subst hres
    rcases classifyPhis_ret _ _ _ _ hcl with e | e <;> rw [e] at h <;> simp at h
  | next st =>
    obtain ⟨seen, hok⟩ := classifyPhis_pivOk _ st0 st [] h0 hnd (by simp) hcl
    rw [hcl] at hres
    simp only at hres
    cases hpv : st.piv with
    | none => rw [hpv] at hres; simp only at hres; subst hres; simp at h
    | some p =>
      rw [hpv] at hres
      simp only at hres
      obtain ⟨f1, f2, f3, f4, f5, f6⟩ := primaryExpr_fields st p
      generalize primaryExpr st p = e at hres f1 f2 f3 f4 f5 f6
      obtain ⟨nv, s1⟩ := e
      simp only at hres f1 f2 f3 f4 f5 f6
      generalize hs1 : State.mk s1.loop s1.cmp s1.cmpIdx s1.piv s1.others s1.toIgnore (some nv)
        = s1n at hres
      have hok1 : PivOk s1n seen := by
        subst hs1
        exact pivOk_of_fields st _ seen hok (fun s hs => ⟨s, f5 ▸ hs, rfl⟩) f4 f3
          (fun id => by simp only [f1])
      cases hrs : rewriteSecondaries s1n (.phi p.rpn) (List.range s1.others.length) with
      | ret st2 r =>
        rw [hrs] at hres
        simp only at hres
        subst hres
        rw [rewriteSecondaries_ret _ _ _ _ _ hrs] at h
        simp at h
      | next st2 =>
        have hok2 := rewriteSecondaries_pivOk _ _ _ _ seen hok1 hrs
        rw [hrs] at hres
        simp only at hres
        cases hp2 : st2.piv with
        | none => rw [hp2] at hres; simp only at hres; subst hres; simp at h
        | some p2 =>
          cases hnv : st2.newV with
          | none => rw [hp2, hnv] at hres; simp only at hres; subst hres; simp at h
          | some newV =>
            rw [hp2, hnv] at hres
            simp only at hres
            cases hru : rewritePrimaryUses st2 p2 newV with
            | none => rw [hru] at hres; simp only at hres; subst hres; simp at h
            | some st3 =>
              rw [hru] at hres
              simp only at hres
              obtain ⟨g1, g2, g3, g4, g5⟩ := rewritePrimaryUses_some _ _ _ _ hru
              rw [hp2] at g4
              simp only [Option.map_some'] at g4
              rw [g4] at hres
              simp only [installCanonical] at hres
              subst hres
              simp only [IndVar.pair.injEq] at h
              obtain ⟨hrpn, htc⟩ := h
              obtain ⟨k1, k2, k3, ⟨q, hq, hqb⟩, ⟨a, b, hab, hor⟩⟩ := hok2.2 p2 hp2
              refine ⟨?_, ?_⟩
              · simp only
                rw [g1, k1, ← hrpn]
                rw [g1, k1] at htc
                rw [← htc]
                simp [CmpInst.setOperand]
              · have hact : useAction st2 p2 (.add a b) = .setStep := by
                  rw [← hab]; exact useAction_incr st2 p2
                generalize useAction st2 p2 = act at g5 hact
                generalize hf : (fun (q : PhiNode) => ({ q with
                    init := rewritePhiSlot act (.phi p2.rpn) newV (constInt st2.loop.width 1)
                      q.id q.init,
                    back := rewritePhiSlot act (.phi p2.rpn) newV (constInt st2.loop.width 1)
                      q.id q.back } : PhiNode)) = f at g5
                have hfid : ∀ x, (f x).id = x.id := by intro x; subst hf; rfl
                have hfind : st3.loop.findPhi p2.rpn = some (f q) := by
                  simp only [Loop.findPhi, g5]
                  rw [find_map_phi _ _ f hfid]
                  have hq2 : st2.loop.phis.find? (fun p => p.id == p2.rpn) = some q := hq
                  rw [hq2]; rfl
                have hback : (f q).back =
                    .add (rewriteUses act (.phi p2.rpn) newV (constInt st2.loop.width 1) a)
                      (constInt st2.loop.width 1) := by
                  subst hf
                  simp only [hqb, hab]
                  simp [rewritePhiSlot, rewriteUses, hor, hact]
                rw [← hrpn]
                refine ⟨_, rewriteUses act (.phi p2.rpn) newV (constInt st2.loop.width 1) a,
                  find_map_init _ _ _ _ hfind, rfl, ?_⟩
                simp only [hback, g2]

theorem finish_exitCmp (st : State) (s0 s1 : Bool) : (st.finish s0 s1).exitCmp = some st.cmp := by
  unfold State.finish Loop.setCmpNodeTerm Loop.exitCmp Loop.cmpNodeTerm
  cases h : st.loop.headerIsDetacher <;> simp [h]

theorem finish_findPhi (st : State) (s0 s1 : Bool) (id : Nat) :
    (st.finish s0 s1).findPhi id = st.loop.findPhi id := by
  unfold State.finish Loop.setCmpNodeTerm Loop.findPhi
  split <;> rfl

theorem finish_width (st : State) (s0 s1 : Bool) : (st.finish s0 s1).width = st.loop.width := by
  unfold State.finish Loop.setCmpNodeTerm
  split <;> rfl

/-- The loop left by `getIndVar` with a pair is in canonical form. -/
theorem getIndVar_canonical (L : Loop) (rpn : Nat) (tc : Value)
    (hnd : (L.phis.map (fun p => p.id)).Nodup)
    (h : (getIndVar L).2 = .pair rpn tc) :
    (getIndVar L).1.exitCmp = some ⟨.ne, .phi rpn, tc⟩ ∧
    ∃ q a, (getIndVar L).1.findPhi rpn = some q ∧
      q.init = constInt (getIndVar L).1.width 0 ∧
      q.back = .add a (constInt (getIndVar L).1.width 1) := by
  obtain ⟨cmp, s0, s1, _, hc, hl⟩ := getIndVar_pair L _ rpn tc (getIndVar_snd L rpn tc h)
  obtain ⟨c1, q, a, c2, c3, c4⟩ := canonicalize_canonical L _ rpn tc hnd hc
  rw [hl]
  refine ⟨by rw [finish_exitCmp, c1], q, a, by rw [finish_findPhi]; exact c2, ?_, ?_⟩
  · rw [finish_width]; exact c3
  · rw [finish_width]; exact c4

/-- C6: on every non-null return of `getIndVar` (the header PHIs having
distinct ids) the loop is in canonical form: the exit comparison has the
predicate `ne` and its operands are the PIV and the trip count returned, the
PIV's incoming value from the preheader is the constant 0, and the step operand
of the PIV's increment is the constant 1. -/
theorem C6_canonical_form (L : Loop) (rpn : Nat) (tc : Value)
    (hnd : (L.phis.map (fun p => p.id)).Nodup)
    (h : (getIndVar L).2 = .pair rpn tc) :
    (getIndVar L).1.exitCmp = some ⟨.ne, .phi rpn, tc⟩ ∧
    ∃ q a, (getIndVar L).1.findPhi rpn = some q ∧
      q.init = constInt (getIndVar L).1.width 0 ∧
      q.back = .add a (constInt (getIndVar L).1.width 1) :=
  getIndVar_canonical L rpn tc hnd h

/-- Witness of C6: the loop `for (i = 3; i <= 17; i += 2)`. -/
theorem C6_canonical_form_witness :
    (getIndVar strideTwo).2 = .pair 0 (.const 8) ∧
    ((getIndVar strideTwo).1.exitCmp = some ⟨.ne, .phi 0, .const 8⟩ ∧
    ∃ q a, (getIndVar strideTwo).1.findPhi 0 = some q ∧
      q.init = constInt (getIndVar strideTwo).1.width 0 ∧
      q.back = .add a (constInt (getIndVar strideTwo).1.width 1)) :=
  ⟨by decide, C6_canonical_form strideTwo 0 (.const 8) (by decide) (by decide)⟩

/-- C10 (the code at the failing input): for
`i = 3; do { ...; i += 2; } while (i < f())`, framed by detach and sync,
`getIndVar` has installed the canonical form (start 0, step 1, test
`i != trip count`) when the hoist of the trip count starts; the hoist moves
the two subtractions, the division and the addition of the trip count above
the terminator of the preheader, then meets the call and fails with them
moved, so the assertion of line 299 on the function fails: `runOnLoop` does
not return false, and the loop is not the one it was on entry. -/
theorem C10_hoist_failure_fails_assertion :
    hoistFailInput.loop.findPhi 0 = some ⟨0, true, .const 3, .add (.phi 0) (.const 2)⟩
      ∧ hoistFailInput.loop.exitCmp = some ⟨.slt, .phi 0, .call 0⟩
      ∧ (getIndVar hoistFailInput.loop).2 = .pair 0
          (.add (.sdiv (.sub (.sub (.call 0) (.const 3)) (.const 1)) (.const 2)) (.const 1))
      ∧ recursiveMoveBefore hoistFailInput.domHeaderTerm
          (.add (.sdiv (.sub (.sub (.call 0) (.const 3)) (.const 1)) (.const 2)) (.const 1))
        = (false, [.sub (.call 0) (.const 3), .sub (.sub (.call 0) (.const 3)) (.const 1),
            .sdiv (.sub (.sub (.call 0) (.const 3)) (.const 1)) (.const 2),
            .add (.sdiv (.sub (.sub (.call 0) (.const 3)) (.const 1)) (.const 2)) (.const 1)])
      ∧ (runOnLoop hoistFailInput 1).map (fun o => o.result) = some .assertFailed
      ∧ (runOnLoop hoistFailInput 1).map (fun o => o.loop.findPhi 0)
        = some (some ⟨0, true, .const 0, .add (.phi 0) (.const 1)⟩)
      ∧ (runOnLoop hoistFailInput 1).map (fun o => o.loop.exitCmp)
        = some (some ⟨.ne, .phi 0,
            .add (.sdiv (.sub (.sub (.call 0) (.const 3)) (.const 1)) (.const 2)) (.const 1)⟩) := by
  decide

theorem wrap_mul_left (w : Nat) (x y : Int) : wrap w (wrap w x * y) = wrap w (x * y) := by
  rw [← wrap_mul_wrap, wrap_wrap, wrap_mul_wrap]

theorem wrap_mul_right (w : Nat) (x y : Int) : wrap w (x * wrap w y) = wrap w (x * y) := by
  rw [← wrap_mul_wrap, wrap_wrap, wrap_mul_wrap]

/-- C11: on the accepted loop `for (i = 0; n > i; i += 1)`, whose exit
comparison holds the bound `n` at operand 0 and the induction variable at
operand 1, `getIndVar` reads operand 1, the induction variable itself, as the
bound: the trip count it returns is built from the PHI and not from `n`, it
overwrites operand 1, the position of the induction variable, with that trip
count, and it writes the PHI into operand 0, where the bound stood. -/
theorem C11_bound_operand_is_always_operand_one :
    boundFirst.exitCmp = some ⟨.sgt, .arg 0, .phi 0⟩
      ∧ (getIndVar boundFirst).2 = .pair 0
          (.add (.sdiv (.sub (.sub (.const 0) (.phi 0)) (.const 1)) (.const (-1))) (.const 1))
      ∧ (getIndVar boundFirst).1.exitCmp = some ⟨.ne, .phi 0,
          .add (.sdiv (.sub (.sub (.const 0) (.phi 0)) (.const 1)) (.const (-1))) (.const 1)⟩ := by
  decide

/-- C17: on the loop `for (i = 0; i < n; i += 1)` whose header has a second
PHI, `getIndVar` returns the induction variable and a trip count, not the null
pair, when the backedge value of that PHI is a load, a call, another PHI or a
constant; it returns the null pair when the backedge value is a binary
operator other than an add or subtract of the PHI. -/
theorem C17_non_binary_backedge_is_skipped :
    (getIndVar (carriedLoop (.load 0))).2
        = .pair 0 (.add (.sub (.arg 0) (.const 1)) (.const 1))
      ∧ (getIndVar (carriedLoop (.call 0))).2
        = .pair 0 (.add (.sub (.arg 0) (.const 1)) (.const 1))
      ∧ (getIndVar (carriedLoop (.phi 0))).2
        = .pair 0 (.add (.sub (.arg 0) (.const 1)) (.const 1))
      ∧ (getIndVar (carriedLoop (.const 7))).2
        = .pair 0 (.add (.sub (.arg 0) (.const 1)) (.const 1))
      ∧ (getIndVar (carriedLoop (.mul (.phi 1) (.const 2)))).2 = .null
      ∧ (getIndVar (carriedLoop (.add (.arg 3) (.const 2)))).2 = .null := by
  decide

theorem recursiveMoveOrder_eq (dom : Value → Bool) (fuel : Nat) :
    ∀ (toMove moved : List Value) (pi : Value), (moved = [] ∨ moved.head? = some pi) →
      recursiveMoveOrder dom fuel toMove moved pi = recursiveMoveLoop dom fuel toMove moved := by
  induction fuel with
  | zero => intro toMove moved pi _; rfl
  | succ fuel ih =>
    intro toMove moved pi h
    cases toMove with
    | nil => rfl
    | cons b rest =>
      have hm : moveBefore pi b moved = b :: moved := by
        rcases h with h | h
        · subst h; rfl
        · cases moved with
          | nil => rfl
          | cons x xs =>
            simp only [List.head?_cons, Option.some.injEq] at h
            simp [moveBefore, h]
      simp only [recursiveMoveOrder, recursiveMoveLoop, hm]
      split
      · split
        · rfl
        · exact ih _ _ _ (Or.inr rfl)
      · exact ih _ _ _ h

/-- C15: on the side-effect-free value `(c + 1) - (c * 2)` with `c = x + y`,
none of whose instructions dominates the anchor, `recursiveMoveBefore` returns
true and leaves the moved instructions in the block order `c + 1`, `c`,
`c * 2`, the subtraction: `c + 1` stands before its operand `c`, so definitions
do not precede uses. -/
theorem C15_shared_operand_breaks_order :
    recursiveMoveBefore (fun _ => false) sharedOperand
        = (true, [.add (.add (.arg 0) (.arg 1)) (.const 1), .add (.arg 0) (.arg 1),
            .mul (.add (.arg 0) (.arg 1)) (.const 2), sharedOperand])
      ∧ recursiveMoveOrder (fun _ => false) 20 [sharedOperand] [] (.call 9)
        = some (true, [.add (.add (.arg 0) (.arg 1)) (.const 1), .add (.arg 0) (.arg 1),
            .mul (.add (.arg 0) (.arg 1)) (.const 2), sharedOperand])
      ∧ defsBeforeUses (recursiveMoveBefore (fun _ => false) sharedOperand).2 = false := by
  decide

theorem attemptRecursiveMoveHelper_false (g : UseGraph) (toMoveAfter fuel toCheck : Nat)
    (r : Bool) (h : attemptRecursiveMoveHelper g toMoveAfter fuel toCheck = some r) :
    r = false := by
  cases fuel with
  | zero => simp [attemptRecursiveMoveHelper] at h
  | succ fuel =>
    simp only [attemptRecursiveMoveHelper] at h
    split at h
    · split at h <;> simp at h <;> exact h
    · simp at h; exact h

/-- C14: `attemptRecursiveMove` returns false and moves nothing for an add all
of whose uses the anchor dominates, for an add without uses, and for an add
whose chained users, not dominated by the anchor, all have listed opcodes. -/
theorem C14_listed_opcode_returns_false :
    attemptRecursiveMove (chainGraph (fun _ => true)) 0 1 5 = some (false, [])
      ∧ attemptRecursiveMove (chainGraph (fun _ => true)) 0 3 5 = some (false, [])
      ∧ attemptRecursiveMove (chainGraph (fun _ => false)) 0 1 5 = some (false, [])
      ∧ ((chainGraph (fun _ => false)).opcode 1).isListed = true
      ∧ ((chainGraph (fun _ => false)).opcode 2).isListed = true
      ∧ ((chainGraph (fun _ => false)).opcode 3).isListed = true := by
  decide

theorem rewriteUses_eq_phi (act : Value → UseAction) (rpn newV one : Value) (r : Nat)
    (v : Value) (h : rewriteUses act rpn newV one v = .phi r) : v = .phi r := by
  cases v <;> simp only [rewriteUses] at h <;> first
    | exact h
    | (split at h
       · split at h <;> simp at h
       · simp at h)

theorem subInstructions_constInt (w : Nat) (c : Int) : subInstructions (constInt w c) = [] := rfl

/-- One binary operator `mk` in the induction of `rewriteUses_users`. -/
theorem rewriteUses_users_step (act : Value → UseAction) (r : Nat) (newV : Value) (w : Nat)
    (hnew : newV ≠ .phi r) (mk : Value → Value → Value)
    (hops : ∀ x y, (mk x y).operands = [x, y])
    (hsub : ∀ x y, subInstructions (mk x y) = mk x y :: (subInstructions x ++ subInstructions y))
    (a b : Value)
    (hrw : rewriteUses act (.phi r) newV (constInt w 1) (mk a b) =
      if a = .phi r ∨ b = .phi r then
        match act (mk a b) with
        | .setStep => mk (rewriteUses act (.phi r) newV (constInt w 1) a) (constInt w 1)
        | .keep => mk (rewriteUses act (.phi r) newV (constInt w 1) a)
            (rewriteUses act (.phi r) newV (constInt w 1) b)
        | .replace =>
          mk (rewriteOperand (.phi r) newV a (rewriteUses act (.phi r) newV (constInt w 1) a))
            (rewriteOperand (.phi r) newV b (rewriteUses act (.phi r) newV (constInt w 1) b))
      else mk (rewriteUses act (.phi r) newV (constInt w 1) a)
        (rewriteUses act (.phi r) newV (constInt w 1) b))
    (iha : ∀ u, u ∈ subInstructions (rewriteUses act (.phi r) newV (constInt w 1) a) →
      .phi r ∈ u.operands → u ∈ subInstructions newV ∨ ∃ pre ∈ subInstructions a,
        .phi r ∈ pre.operands ∧ act pre ≠ .replace
          ∧ u = rewriteUses act (.phi r) newV (constInt w 1) pre)
    (ihb : ∀ u, u ∈ subInstructions (rewriteUses act (.phi r) newV (constInt w 1) b) →
      .phi r ∈ u.operands → u ∈ subInstructions newV ∨ ∃ pre ∈ subInstructions b,
        .phi r ∈ pre.operands ∧ act pre ≠ .replace
          ∧ u = rewriteUses act (.phi r) newV (constInt w 1) pre) :
    ∀ u, u ∈ subInstructions (rewriteUses act (.phi r) newV (constInt w 1) (mk a b)) →
      .phi r ∈ u.operands → u ∈ subInstructions newV ∨ ∃ pre ∈ subInstructions (mk a b),
        .phi r ∈ pre.operands ∧ act pre ≠ .replace
          ∧ u = rewriteUses act (.phi r) newV (constInt w 1) pre := by
  intro u hu hop
  have liftA : (u ∈ subInstructions newV ∨ ∃ pre ∈ subInstructions a,
        .phi r ∈ pre.operands ∧ act pre ≠ .replace
          ∧ u = rewriteUses act (.phi r) newV (constInt w 1) pre) →
      (u ∈ subInstructions newV ∨ ∃ pre ∈ subInstructions (mk a b),
        .phi r ∈ pre.operands ∧ act pre ≠ .replace
          ∧ u = rewriteUses act (.phi r) newV (constInt w 1) pre) := by
    rintro (h | ⟨pre, hm, h⟩)
    · exact Or.inl h
    · exact Or.inr ⟨pre, by rw [hsub]; exact List.mem_cons_of_mem _ (List.mem_append_left _ hm), h⟩
  have liftB : (u ∈ subInstructions newV ∨ ∃ pre ∈ subInstructions b,
        .phi r ∈ pre.operands ∧ act pre ≠ .replace
          ∧ u = rewriteUses act (.phi r) newV (constInt w 1) pre) →
      (u ∈ subInstructions newV ∨ ∃ pre ∈ subInstructions (mk a b),
        .phi r ∈ pre.operands ∧ act pre ≠ .replace
          ∧ u = rewriteUses act (.phi r) newV (constInt w 1) pre) := by
    rintro (h | ⟨pre, hm, h⟩)
    · exact Or.inl h
    · exact Or.inr ⟨pre, by rw [hsub]; exact List.mem_cons_of_mem _ (List.mem_append_right _ hm), h⟩
  have self : .phi r ∈ (mk a b).operands → act (mk a b) ≠ .replace →
      u = rewriteUses act (.phi r) newV (constInt w 1) (mk a b) →
      (u ∈ subInstructions newV ∨ ∃ pre ∈ subInstructions (mk a b),
        .phi r ∈ pre.operands ∧ act pre ≠ .replace
          ∧ u = rewriteUses act (.phi r) newV (constInt w 1) pre) := by
    intro h1 h2 h3
    exact Or.inr ⟨mk a b, by rw [hsub]; exact List.mem_cons_self _ _, h1, h2, h3⟩
  by_cases hc : a = .phi r ∨ b = .phi r
  · have hmem : Value.phi r ∈ (mk a b).operands := by
      rw [hops]
      rcases hc with h | h
      · simp [h]
      · simp [h]
    rw [if_pos hc] at hrw
    cases hact : act (mk a b) with
    | setStep =>
      rw [hact] at hrw
      simp only at hrw
      rw [hrw, hsub, subInstructions_constInt, List.append_nil, List.mem_cons] at hu
      rcases hu with hu | hu
      · exact self hmem (by rw [hact]; decide) (by rw [hrw]; exact hu)
      · exact liftA (iha u hu hop)
    | keep =>
      rw [hact] at hrw
      simp only at hrw
      rw [hrw, hsub, List.mem_cons, List.mem_append] at hu
      rcases hu with hu | hu | hu
      · exact self hmem (by rw [hact]; decide) (by rw [hrw]; exact hu)
      · exact liftA (iha u hu hop)
      · exact liftB (ihb u hu hop)
    | replace =>
      rw [hact] at hrw
      simp only at hrw
      rw [hrw, hsub, List.mem_cons, List.mem_append] at hu
      have hro : ∀ x : Value, rewriteOperand (.phi r) newV x
          (rewriteUses act (.phi r) newV (constInt w 1) x) ≠ .phi r := by
        intro x hx
        unfold rewriteOperand at hx
        split at hx
        · exact hnew hx
        · rename_i hne
          exact hne (rewriteUses_eq_phi _ _ _ _ _ _ hx)
      rcases hu with hu | hu | hu
      · subst hu
        rw [hops] at hop
        simp only [List.mem_cons, List.mem_singleton, List.not_mem_nil, or_false] at hop
        rcases hop with h | h
        · exact absurd h.symm (hro a)
        · exact absurd h.symm (hro b)
      · unfold rewriteOperand at hu
        split at hu
        · exact Or.inl hu
        · exact liftA (iha u hu hop)
      · unfold rewriteOperand at hu
        split at hu
        · exact Or.inl hu
        · exact liftB (ihb u hu hop)
  · rw [if_neg hc] at hrw
    rw [hrw, hsub, List.mem_cons, List.mem_append] at hu
    rcases hu with hu | hu | hu
    · subst hu
      rw [hops] at hop
      simp only [List.mem_cons, List.mem_singleton, List.not_mem_nil, or_false] at hop
      rcases hop with h | h
      · exact absurd (Or.inl (rewriteUses_eq_phi _ _ _ _ _ _ h.symm)) hc
      · exact absurd (Or.inr (rewriteUses_eq_phi _ _ _ _ _ _ h.symm)) hc
    · exact liftA (iha u hu hop)
    · exact liftB (ihb u hu hop)

theorem rewriteUses_users (act : Value → UseAction) (r : Nat) (newV : Value) (w : Nat)
    (hnew : newV ≠ .phi r) (v : Value) :
    ∀ u, u ∈ subInstructions (rewriteUses act (.phi r) newV (constInt w 1) v) →
      .phi r ∈ u.operands → u ∈ subInstructions newV ∨ ∃ pre ∈ subInstructions v,
        .phi r ∈ pre.operands ∧ act pre ≠ .replace
          ∧ u = rewriteUses act (.phi r) newV (constInt w 1) pre := by
  induction v with
  | add a b iha ihb =>
    exact rewriteUses_users_step act r newV w hnew Value.add (fun _ _ => rfl) (fun _ _ => rfl)
      a b rfl iha ihb
  | sub a b iha ihb =>
    exact rewriteUses_users_step act r newV w hnew Value.sub (fun _ _ => rfl) (fun _ _ => rfl)
      a b rfl iha ihb
  | mul a b iha ihb =>
    exact rewriteUses_users_step act r newV w hnew Value.mul (fun _ _ => rfl) (fun _ _ => rfl)
      a b rfl iha ihb
  | sdiv a b iha ihb =>
    exact rewriteUses_users_step act r newV w hnew Value.sdiv (fun _ _ => rfl) (fun _ _ => rfl)
      a b rfl iha ihb
  | const c => intro u hu; simp [rewriteUses, subInstructions] at hu
  | arg n => intro u hu; simp [rewriteUses, subInstructions] at hu
  | phi n =>
    intro u hu hop
    simp only [rewriteUses, subInstructions, List.mem_singleton] at hu
    subst hu; simp [Value.operands] at hop
  | call n =>
    intro u hu hop
    simp only [rewriteUses, subInstructions, List.mem_singleton] at hu
    subst hu; simp [Value.operands] at hop
  | load n =>
    intro u hu hop
    simp only [rewriteUses, subInstructions, List.mem_singleton] at hu
    subst hu; simp [Value.operands] at hop

theorem primaryExpr_ne_phi (st : State) (p : Piv)
    (h : isOne p.amt = false ∨ isZero (st.initOf p.rpn) = false) :
    (primaryExpr st p).1 ≠ .phi p.rpn := by
  have hinit : ∀ v : Value, (st.ignore v).initOf p.rpn = st.initOf p.rpn := fun _ => rfl
  unfold primaryExpr
  by_cases h1 : isOne p.amt = true <;> by_cases h0 : isZero (st.initOf p.rpn) = true
  · rcases h with h | h
    · rw [h] at h1; cases h1
    · rw [h] at h0; cases h0
  · simp [h1, h0, createAdd]
  · simp [h1, h0, hinit, createMul]
  · simp [h1, h0, hinit, createMul, createAdd]

theorem useAction_skipped (st : State) (p : Piv) (i : Value)
    (h : useAction st p i ≠ .replace) :
    i = p.incr ∨ st.toIgnore.contains i = true ∨ i = st.cmp.op0 ∨ i = st.cmp.op1
      ∨ i = .phi p.rpn ∨ st.loop.inCmpBlock i = true ∨ st.loop.inDetacher i = true := by
  unfold useAction at h
  split at h
  · rename_i h1; exact Or.inl h1
  · split at h
    · rename_i h2
      simp only [Bool.and_eq_true] at h2
      exact Or.inr (Or.inl h2.1)
    · split at h
      · rename_i h3
        simp only [Bool.or_eq_true, decide_eq_true_eq] at h3
        rcases h3 with (((h3 | h3) | h3) | h3) | h3
        · exact Or.inr (Or.inr (Or.inl h3))
        · exact Or.inr (Or.inr (Or.inr (Or.inl h3)))
        · exact Or.inr (Or.inr (Or.inr (Or.inr (Or.inl h3))))
        · exact Or.inr (Or.inr (Or.inr (Or.inr (Or.inr (Or.inl h3)))))
        · exact Or.inr (Or.inr (Or.inr (Or.inr (Or.inr (Or.inr h3)))))
      · exact absurd rfl h

theorem eval_primaryExpr (w : Nat) (env : Env) (st : State) (p : Piv) :
    eval w env (primaryExpr st p).1
      = wrap w (eval w env (st.initOf p.rpn) + env.phi p.rpn * eval w env p.amt) := by
  have hinit : ∀ v : Value, (st.ignore v).initOf p.rpn = st.initOf p.rpn := fun _ => rfl
  have hm : ∀ s : Value, createMul st.loop.width (.phi p.rpn) s = .mul (.phi p.rpn) s :=
    fun s => rfl
  have ha1 : ∀ s : Value, createAdd st.loop.width (.phi p.rpn) s = .add (.phi p.rpn) s :=
    fun s => rfl
  have ha2 : ∀ x s : Value,
      createAdd st.loop.width (.mul (.phi p.rpn) x) s = .add (.mul (.phi p.rpn) x) s :=
    fun x s => rfl
  unfold primaryExpr
  by_cases h1 : isOne p.amt = true <;> by_cases h0 : isZero (st.initOf p.rpn) = true <;>
    simp only [h1, h0, hinit, if_true, if_false, Bool.false_eq_true, hm, ha1, ha2, eval,
      wrap_add_left, wrap_wrap, wrap_mul_left]
  · rw [isOne_eval w env _ h1, isZero_eval w env _ h0, zero_add, wrap_mul_right, mul_one]
  · rw [isOne_eval w env _ h1, ← wrap_add_right w _ (_ * _), wrap_mul_right, mul_one,
      wrap_add_right, add_comm]
  · rw [isZero_eval w env _ h0, zero_add]
  · rw [add_comm]

theorem rewriteUses_replaced (act : Value → UseAction) (rpn newV one : Value) (pre : Value)
    (h : act pre = .replace) :
    (rewriteUses act rpn newV one pre).operands
      = pre.operands.map (fun o => if o = rpn then newV else rewriteUses act rpn newV one o) := by
  have step : ∀ (mk : Value → Value → Value) (a b : Value),
      (∀ x y, (mk x y).operands = [x, y]) →
      (if a = rpn ∨ b = rpn then
          mk (if a = rpn then newV else rewriteUses act rpn newV one a)
            (if b = rpn then newV else rewriteUses act rpn newV one b)
        else mk (rewriteUses act rpn newV one a) (rewriteUses act rpn newV one b)).operands
        = [if a = rpn then newV else rewriteUses act rpn newV one a,
           if b = rpn then newV else rewriteUses act rpn newV one b] := by
    intro mk a b hops
    by_cases hc : a = rpn ∨ b = rpn
    · rw [if_pos hc, hops]
    · rw [if_neg hc, hops]
      simp only [not_or] at hc
      rw [if_neg hc.1, if_neg hc.2]
  cases pre with
  | add a b =>
    simp only [rewriteUses, h, rewriteOperand]
    exact step Value.add a b (fun _ _ => rfl)
  | sub a b =>
    simp only [rewriteUses, h, rewriteOperand]
    exact step Value.sub a b (fun _ _ => rfl)
  | mul a b =>
    simp only [rewriteUses, h, rewriteOperand]
    exact step Value.mul a b (fun _ _ => rfl)
  | sdiv a b =>
    simp only [rewriteUses, h, rewriteOperand]
    exact step Value.sdiv a b (fun _ _ => rfl)
  | const c => rfl
  | arg n => rfl
  | phi n => rfl
  | call n => rfl
  | load n => rfl

/-- C13 (as the code has it): after the loop over the uses of a primary
induction variable with step other than 1 or start other than 0, an
instruction below the body that still has the PHI as an operand is either one
of the helper instructions of the new expression, or the image of a user that
the loop skipped: the increment, a member of the ignore set, an operand of the
exit comparison, or an instruction standing in the block of the comparison or
in the detacher block.  A user that is not skipped holds the new expression in
every operand slot that held the PHI, and the new expression evaluates to
start plus step times the PHI. -/
theorem C13_uses_outside_skipped_blocks_are_replaced (st0 st : State) (p : Piv)
    (body : List Value)
    (hstep : isOne p.amt = false ∨ isZero (st0.initOf p.rpn) = false)
    (hr : (rewritePrimaryUses st p (primaryExpr st0 p).1).map (fun s => s.loop.body)
      = some body) :
    (∀ root ∈ body, ∀ u ∈ subInstructions root, Value.phi p.rpn ∈ u.operands →
      u ∈ subInstructions (primaryExpr st0 p).1
        ∨ ∃ root0 ∈ st.loop.body, ∃ pre ∈ subInstructions root0,
            Value.phi p.rpn ∈ pre.operands
            ∧ u = rewriteUses (useAction st p) (.phi p.rpn) (primaryExpr st0 p).1
                (constInt st.loop.width 1) pre
            ∧ (pre = p.incr ∨ st.toIgnore.contains pre = true ∨ pre = st.cmp.op0
                ∨ pre = st.cmp.op1 ∨ st.loop.inCmpBlock pre = true
                ∨ st.loop.inDetacher pre = true))
      ∧ (∀ pre, useAction st p pre = .replace →
          (rewriteUses (useAction st p) (.phi p.rpn) (primaryExpr st0 p).1
              (constInt st.loop.width 1) pre).operands
            = pre.operands.map (fun o => if o = .phi p.rpn then (primaryExpr st0 p).1
                else rewriteUses (useAction st p) (.phi p.rpn) (primaryExpr st0 p).1
                  (constInt st.loop.width 1) o))
      ∧ (∀ (w : Nat) (env : Env), eval w env (primaryExpr st0 p).1
          = wrap w (eval w env (st0.initOf p.rpn) + env.phi p.rpn * eval w env p.amt)) := by
  refine ⟨?_, fun pre h => rewriteUses_replaced _ _ _ _ pre h,
    fun w env => eval_primaryExpr w env st0 p⟩
  intro root hroot u hu huse
  have hnew := primaryExpr_ne_phi st0 p hstep
  unfold rewritePrimaryUses at hr
  simp only at hr
  split at hr
  · simp at hr
  · simp only [Option.map_some', Option.some.injEq] at hr
    subst hr
    rw [List.mem_map] at hroot
    obtain ⟨root0, hroot0, rfl⟩ := hroot
    rcases rewriteUses_users (useAction st p) p.rpn _ st.loop.width hnew root0 u hu huse with
      h | ⟨pre, hpre, hop, hact, hu2⟩
    · exact Or.inl h
    · refine Or.inr ⟨root0, hroot0, pre, hpre, hop, hu2, ?_⟩
      rcases useAction_skipped st p pre hact with h | h | h | h | h | h | h
      · exact Or.inl h
      · exact Or.inr (Or.inl h)
      · exact Or.inr (Or.inr (Or.inl h))
      · exact Or.inr (Or.inr (Or.inr (Or.inl h)))
      · subst h; simp [Value.operands] at hop
      · exact Or.inr (Or.inr (Or.inr (Or.inr (Or.inl h))))
      · exact Or.inr (Or.inr (Or.inr (Or.inr (Or.inr h))))

theorem C13_uses_outside_skipped_blocks_are_replaced_witness :
    (isOne headerUserPiv.amt = false ∨ isZero (headerUserState.initOf headerUserPiv.rpn) = false)
      ∧ (rewritePrimaryUses headerUserState headerUserPiv
            (primaryExpr headerUserState headerUserPiv).1).map (fun s => s.loop.body)
          = some [.add (.phi 0) (.const 1), .mul (.phi 0) (.arg 5), .sub (.phi 0) (.arg 6),
              .add (.add (.mul (.phi 0) (.const 2)) (.const 3)) (.arg 7)]
      ∧ ((∀ root ∈ [Value.add (.phi 0) (.const 1), .mul (.phi 0) (.arg 5),
            .sub (.phi 0) (.arg 6), .add (.add (.mul (.phi 0) (.const 2)) (.const 3)) (.arg 7)],
          ∀ u ∈ subInstructions root, Value.phi headerUserPiv.rpn ∈ u.operands →
          u ∈ subInstructions (primaryExpr headerUserState headerUserPiv).1
            ∨ ∃ root0 ∈ headerUserState.loop.body, ∃ pre ∈ subInstructions root0,
              Value.phi headerUserPiv.rpn ∈ pre.operands
              ∧ u = rewriteUses (useAction headerUserState headerUserPiv)
                  (.phi headerUserPiv.rpn) (primaryExpr headerUserState headerUserPiv).1
                  (constInt headerUserState.loop.width 1) pre
              ∧ (pre = headerUserPiv.incr ∨ headerUserState.toIgnore.contains pre = true
                  ∨ pre = headerUserState.cmp.op0 ∨ pre = headerUserState.cmp.op1
                  ∨ headerUserState.loop.inCmpBlock pre = true
                  ∨ headerUserState.loop.inDetacher pre = true))
        ∧ (∀ pre, useAction headerUserState headerUserPiv pre = .replace →
            (rewriteUses (useAction headerUserState headerUserPiv) (.phi headerUserPiv.rpn)
                (primaryExpr headerUserState headerUserPiv).1
                (constInt headerUserState.loop.width 1) pre).operands
              = pre.operands.map (fun o => if o = .phi headerUserPiv.rpn
                  then (primaryExpr headerUserState headerUserPiv).1
                  else rewriteUses (useAction headerUserState headerUserPiv)
                    (.phi headerUserPiv.rpn) (primaryExpr headerUserState headerUserPiv).1
                    (constInt headerUserState.loop.width 1) o))
        ∧ (∀ (w : Nat) (env : Env), eval w env (primaryExpr headerUserState headerUserPiv).1
            = wrap w (eval w env (headerUserState.initOf headerUserPiv.rpn)
                + env.phi headerUserPiv.rpn * eval w env headerUserPiv.amt))) :=
  ⟨by decide, by decide,
    C13_uses_outside_skipped_blocks_are_replaced headerUserState headerUserState headerUserPiv
      [.add (.phi 0) (.const 1), .mul (.phi 0) (.arg 5), .sub (.phi 0) (.arg 6),
        .add (.add (.mul (.phi 0) (.const 2)) (.const 3)) (.arg 7)]
      (by decide) (by decide)⟩

/-- C13 (counterexample): on the loop `for (i = 3; i <= 17; i += 2)`,
`getIndVar` succeeds and leaves `i * a5`, in the block of the exit comparison,
and `i - a6`, in the detacher block, with the PHI as their operand, while
`i + a7` has become `(i * 2 + 3) + a7`. -/
theorem C13_counterexample_cmp_block_user_kept :
    (getIndVar headerUserLoop).2 = .pair 0 (.const 8)
      ∧ (getIndVar headerUserLoop).1.body
        = [.add (.phi 0) (.const 1), .mul (.phi 0) (.arg 5), .sub (.phi 0) (.arg 6),
            .add (.add (.mul (.phi 0) (.const 2)) (.const 3)) (.arg 7)]
      ∧ headerUserLoop.inCmpBlock (.mul (.phi 0) (.arg 5)) = true
      ∧ headerUserLoop.inDetacher (.sub (.phi 0) (.arg 6)) = true := by
  decide

theorem setInsert_of_not_mem (s : List Nat) (b : Nat) (h : b ∉ s) : setInsert s b = s ++ [b] := by
  simp [setInsert, h]

theorem mem_setInsert (s : List Nat) (b x : Nat) : x ∈ setInsert s b ↔ x ∈ s ∨ x = b := by
  unfold setInsert
  split
  · rename_i h
    simp at h
    constructor
    · exact Or.inl
    · rintro (h1 | h1)
      · exact h1
      · subst h1; exact h
  · simp

theorem mem_foldl_setInsert (l : List Nat) : ∀ (s : List Nat) (x : Nat),
    x ∈ l.foldl setInsert s ↔ x ∈ s ∨ x ∈ l := by
  induction l with
  | nil => intro s x; simp
  | cons a l ih =>
    intro s x
    simp only [List.foldl_cons, ih, mem_setInsert, List.mem_cons]
    tauto

/-- A valid walk has reached every block of its work list. -/
theorem exitWalk_reached (blocks : Nat → Block) (exitBlocks alsoLoop : List Nat) (fuel : Nat) :
    ∀ (q reachable visited r v : List Nat),
      exitWalk blocks exitBlocks alsoLoop fuel q reachable visited = some (true, r, v) →
      (∀ x ∈ q, x ∈ r) ∧ ∀ x ∈ reachable, x ∈ r := by
  induction fuel with
  | zero => intro q reachable visited r v h; simp [exitWalk] at h
  | succ fuel ih =>
    intro q reachable visited r v h
    cases q with
    | nil =>
      simp only [exitWalk, Option.some.injEq, Prod.mk.injEq, true_and] at h
      obtain ⟨rfl, _⟩ := h
      exact ⟨by simp, fun x hx => hx⟩
    | cons m q =>
      simp only [exitWalk] at h
      split at h
      · obtain ⟨h1, h2⟩ := ih _ _ _ _ _ h
        have hm : m ∈ r := h2 m ((mem_setInsert _ _ _).2 (Or.inr rfl))
        refine ⟨?_, fun x hx => h2 x ((mem_setInsert _ _ _).2 (Or.inl hx))⟩
        intro x hx
        rcases List.mem_cons.1 hx with hx | hx
        · subst hx; exact hm
        · exact h1 x hx
      · split at h
        · obtain ⟨h1, h2⟩ := ih _ _ _ _ _ h
          have hm : m ∈ r := h2 m ((mem_setInsert _ _ _).2 (Or.inr rfl))
          refine ⟨?_, fun x hx => h2 x ((mem_setInsert _ _ _).2 (Or.inl hx))⟩
          intro x hx
          rcases List.mem_cons.1 hx with hx | hx
          · subst hx; exact hm
          · exact h1 x (List.mem_cons_of_mem _ hx)
        · obtain ⟨h1, h2⟩ := ih _ _ _ _ _ h
          have hm : m ∈ r := h2 m ((mem_setInsert _ _ _).2 (Or.inr rfl))
          refine ⟨?_, fun x hx => h2 x ((mem_setInsert _ _ _).2 (Or.inl hx))⟩
          intro x hx
          rcases List.mem_cons.1 hx with hx | hx
          · subst hx; exact hm
          · exact h1 x hx
      · simp at h

theorem nodup_snoc (l : List Nat) (m : Nat) (hnd : l.Nodup) (hm : m ∉ l) : (l ++ [m]).Nodup := by
  rw [List.nodup_append]
  refine ⟨hnd, List.nodup_singleton m, ?_⟩
  intro x hx hx2
  rw [List.mem_singleton] at hx2
  subst hx2
  exact hm hx

theorem nodup_length_le (l : List Nat) (n : Nat) (hnd : l.Nodup) (h : ∀ x ∈ l, x < n) :
    l.length ≤ n := by
  have hs := (List.subperm_of_subset hnd (fun x hx => List.mem_range.2 (h x hx))).length_le
  rwa [List.length_range] at hs

/-- The successor pushed by the walk has not been reached. -/
theorem find_not_reached (blocks : Nat → Block) (exitBlocks alsoLoop reachable succs : List Nat)
    (suc : Nat)
    (h : succs.find? (fun suc =>
          !((blocks suc).inLoop || exitBlocks.contains suc || alsoLoop.contains suc
            || reachable.contains suc)) = some suc) :
    suc ∉ reachable ∧ suc ∈ succs := by
  have h1 := List.find?_some h
  have h2 := List.mem_of_find?_eq_some h
  refine ⟨?_, h2⟩
  intro hmem
  simp at h1
  exact h1.2 hmem

/-- A walk that starts from one block visits no block twice. -/
theorem exitWalk_visits_nodup (blocks : Nat → Block) (exitBlocks alsoLoop : List Nat)
    (fuel : Nat) :
    ∀ (q reachable : List Nat) (valid : Bool) (r v : List Nat),
      (q = [] ∨ ∃ m, q = [m] ∧ m ∉ reachable) → reachable.Nodup →
      exitWalk blocks exitBlocks alsoLoop fuel q reachable reachable = some (valid, r, v) →
      v.Nodup := by
  induction fuel with
  | zero => intro q reachable valid r v _ _ h; simp [exitWalk] at h
  | succ fuel ih =>
    intro q reachable valid r v hq hnd h
    rcases hq with rfl | ⟨m, rfl, hm⟩
    · simp only [exitWalk, Option.some.injEq, Prod.mk.injEq] at h
      obtain ⟨_, _, rfl⟩ := h
      exact hnd
    · have hnd1 := nodup_snoc reachable m hnd hm
      simp only [exitWalk, setInsert_of_not_mem reachable m hm] at h
      split at h
      · exact ih _ _ _ _ _ (Or.inl rfl) hnd1 h
      · split at h
        · rename_i suc hfind
          exact ih _ _ _ _ _ (Or.inr ⟨suc, rfl, (find_not_reached _ _ _ _ _ _ hfind).1⟩) hnd1 h
        · exact ih _ _ _ _ _ (Or.inl rfl) hnd1 h
      · simp only [Option.some.injEq, Prod.mk.injEq] at h
        obtain ⟨_, _, rfl⟩ := h
        exact hnd1

/-- A walk that starts from one block ends within as many steps as there are
blocks not yet reached, plus one. -/
theorem exitWalk_isSome (blocks : Nat → Block) (exitBlocks alsoLoop : List Nat) (n : Nat)
    (hsucc : ∀ b, b < n → ∀ s ∈ (blocks b).succs, s < n) (fuel : Nat) :
    ∀ (q reachable visited : List Nat),
      (q = [] ∨ ∃ m, q = [m] ∧ m ∉ reachable ∧ m < n) → reachable.Nodup →
      (∀ x ∈ reachable, x < n) → n + 1 ≤ fuel + reachable.length →
      (exitWalk blocks exitBlocks alsoLoop fuel q reachable visited).isSome = true := by
  induction fuel with
  | zero =>
    intro q reachable visited _ hnd hlt hfuel
    have := nodup_length_le reachable n hnd hlt
    omega
  | succ fuel ih =>
    intro q reachable visited hq hnd hlt hfuel
    rcases hq with rfl | ⟨m, rfl, hm, hmn⟩
    · simp [exitWalk]
    · have hnd1 := nodup_snoc reachable m hnd hm
      have hlt1 : ∀ x ∈ reachable ++ [m], x < n := by
        intro x hx
        rcases List.mem_append.1 hx with hx | hx
        · exact hlt x hx
        · rw [List.mem_singleton] at hx; subst hx; exact hmn
      have hfuel1 : n + 1 ≤ fuel + (reachable ++ [m]).length := by
        simp only [List.length_append, List.length_singleton]; omega
      simp only [exitWalk, setInsert_of_not_mem reachable m hm]
      split
      · exact ih _ _ _ (Or.inl rfl) hnd1 hlt1 hfuel1
      · split
        · rename_i suc hfind
          have hf := find_not_reached _ _ _ _ _ _ hfind
          exact ih _ _ _ (Or.inr ⟨suc, rfl, hf.1, hsucc m hmn suc hf.2⟩) hnd1 hlt1 hfuel1
        · exact ih _ _ _ (Or.inl rfl) hnd1 hlt1 hfuel1
      · rfl

theorem exitsRound_isSome (blocks : Nat → Block) (exitBlocks : List Nat) (n : Nat)
    (hsucc : ∀ b, b < n → ∀ s ∈ (blocks b).succs, s < n) :
    ∀ (todo exits alsoLoop : List Nat) (toRemove : Bool), (∀ e ∈ todo, e < n) →
      (exitsRound blocks exitBlocks n todo exits alsoLoop toRemove).isSome = true := by
  intro todo
  induction todo with
  | nil => intro exits alsoLoop toRemove _; rfl
  | cons tempExit todo ih =>
    intro exits alsoLoop toRemove hlt
    have hrest : ∀ e ∈ todo, e < n := fun e he => hlt e (List.mem_cons_of_mem _ he)
    simp only [exitsRound]
    split
    · exact ih _ _ _ hrest
    · have hw := exitWalk_isSome blocks exitBlocks alsoLoop n hsucc (n + 1) [tempExit] [] []
        (Or.inr ⟨tempExit, rfl, List.not_mem_nil _, hlt tempExit (List.mem_cons_self _ _)⟩)
        List.nodup_nil (fun x hx => absurd hx (List.not_mem_nil _)) (by simp)
      split
      · rename_i hnone
        rw [hnone] at hw
        cases hw
      · split
        · exact ih _ _ _ hrest
        · exact ih _ _ _ hrest

/-- A pass over the exits only removes exits, and a pass that sets `toRemove`
has removed at least one. -/
theorem exitsRound_shrinks (blocks : Nat → Block) (exitBlocks : List Nat) (n : Nat) :
    ∀ (todo exits alsoLoop : List Nat) (toRemove : Bool) (e a : List Nat) (t : Bool),
      exitsRound blocks exitBlocks n todo exits alsoLoop toRemove = some (e, a, t) →
      (∀ x ∈ e, x ∈ exits) ∧ e.length ≤ exits.length
        ∧ (t = true → toRemove = true ∨ e.length < exits.length) := by
  intro todo
  induction todo with
  | nil =>
    intro exits alsoLoop toRemove e a t h
    simp only [exitsRound, Option.some.injEq, Prod.mk.injEq] at h
    obtain ⟨rfl, _, rfl⟩ := h
    exact ⟨fun x hx => hx, le_refl _, fun ht => Or.inl ht⟩
  | cons tempExit todo ih =>
    intro exits alsoLoop toRemove e a t h
    simp only [exitsRound] at h
    split at h
    · exact ih _ _ _ _ _ _ h
    · rename_i hin
      simp only [Bool.not_eq_true, Bool.not_eq_false] at hin
      split at h
      · simp at h
      · rename_i valid reachable visited hwalk
        split at h
        · rename_i hvalid
          simp only [Bool.and_eq_true] at hvalid
          have hv : valid = true := hvalid.1
          subst hv
          have hreached := (exitWalk_reached _ _ _ _ _ _ _ _ _ hwalk).1 tempExit
            (List.mem_singleton.2 rfl)
          obtain ⟨h1, h2, _⟩ := ih _ _ _ _ _ _ h
          have hlt : (exits.filter (fun b => !reachable.contains b)).length < exits.length := by
            rw [List.length_filter_lt_length_iff_exists]
            refine ⟨tempExit, ?_, ?_⟩
            · simpa using hin
            · simp [hreached]
          refine ⟨fun x hx => (List.mem_filter.1 (h1 x hx)).1, ?_, fun _ => Or.inr ?_⟩
          · exact le_trans h2 (le_of_lt hlt)
          · exact lt_of_le_of_lt h2 hlt
        · exact ih _ _ _ _ _ _ h

/-- The loop `while (toRemove)` ends within as many rounds as there are exits,
plus one, and only removes exits. -/
theorem trueExitLoop_some (blocks : Nat → Block) (exitBlocks : List Nat) (n : Nat)
    (hsucc : ∀ b, b < n → ∀ s ∈ (blocks b).succs, s < n) (fuel : Nat) :
    ∀ (exits alsoLoop : List Nat), exits.length + 1 ≤ fuel → (∀ e ∈ exits, e < n) →
      ∃ r, trueExitLoop blocks exitBlocks n fuel exits alsoLoop = some r ∧ ∀ x ∈ r, x ∈ exits := by
  induction fuel with
  | zero => intro exits alsoLoop h; omega
  | succ fuel ih =>
    intro exits alsoLoop hfuel hlt
    simp only [trueExitLoop]
    split
    · have hs := exitsRound_isSome blocks exitBlocks n hsucc exits exits alsoLoop false hlt
      cases hround : exitsRound blocks exitBlocks n exits exits alsoLoop false with
      | none => rw [hround] at hs; cases hs
      | some res =>
        obtain ⟨e, a, t⟩ := res
        obtain ⟨h1, h2, h3⟩ := exitsRound_shrinks _ _ _ _ _ _ _ _ _ _ hround
        cases t with
        | true =>
          have hl : e.length < exits.length := by
            rcases h3 rfl with h | h
            · cases h
            · exact h
          obtain ⟨r, hr, hsub⟩ := ih e a (by omega) (fun x hx => hlt x (h1 x hx))
          exact ⟨r, hr, fun x hx => h1 x (hsub x hx)⟩
        | false => exact ⟨e, rfl, h1⟩
    · exact ⟨exits, rfl, fun x hx => hx⟩

/-- C16: with the exit blocks 1 and 2, block 1 ending in a conditional branch
to block 3 (`unreachable`) and block 4 (a return), `getTrueExit` follows only
the first successor, drops exit 1 although the return in block 4 is reachable
from it, and returns block 2; with the two successors swapped the walk meets
the return, exit 1 is kept and the result is null. -/
theorem C16_only_first_successor_is_followed :
    (twoExitBlocks 3 4 1).term = .branch ∧ (twoExitBlocks 3 4 1).succs = [3, 4]
      ∧ (twoExitBlocks 3 4 4).term = .other
      ∧ exitWalk (twoExitBlocks 3 4) [1, 2] [] 7 [1] [] [] = some (true, [1, 3], [1, 3])
      ∧ exitsRound (twoExitBlocks 3 4) [1, 2] 6 [1, 2] [1, 2] [] false = some ([2], [1, 3], true)
      ∧ getTrueExit (twoExitBlocks 3 4) 6 [1, 2] = some (some 2)
      ∧ exitWalk (twoExitBlocks 4 3) [1, 2] [] 7 [1] [] [] = some (false, [1], [1, 4])
      ∧ getTrueExit (twoExitBlocks 4 3) 6 [1, 2] = some none := by
  decide

/-- C18: in a function whose blocks are numbered below `n`, with every
successor and every exit block among them, `getTrueExit` returns, and a block
it returns is one of the exit blocks of the loop; every forward walk from a
block ends and visits no block twice; and a pass over the exits after which
the outer loop repeats has made the set of candidate exits smaller. -/
theorem C18_getTrueExit_terminates (blocks : Nat → Block) (n : Nat) (exitBlocks : List Nat)
    (hsucc : ∀ b, b < n → ∀ s ∈ (blocks b).succs, s < n)
    (hexit : ∀ e ∈ exitBlocks, e < n) :
    (∃ r, getTrueExit blocks n exitBlocks = some r ∧ ∀ b, r = some b → b ∈ exitBlocks)
      ∧ (∀ alsoLoop tempExit, tempExit < n → ∃ valid reachable visited,
          exitWalk blocks exitBlocks alsoLoop (n + 1) [tempExit] [] []
            = some (valid, reachable, visited) ∧ visited.Nodup)
      ∧ (∀ exits alsoLoop exits1 alsoLoop1,
          exitsRound blocks exitBlocks n exits exits alsoLoop false
            = some (exits1, alsoLoop1, true) → exits1.length < exits.length) := by
  refine ⟨?_, ?_, ?_⟩
  · have hmem : ∀ x ∈ exitBlocks.foldl setInsert [], x ∈ exitBlocks := by
      intro x hx
      rcases (mem_foldl_setInsert exitBlocks [] x).1 hx with h | h
      · exact absurd h (List.not_mem_nil _)
      · exact h
    obtain ⟨r, hr, hsub⟩ := trueExitLoop_some blocks exitBlocks n hsucc
      ((exitBlocks.foldl setInsert []).length + 1) (exitBlocks.foldl setInsert []) []
      (le_refl _) (fun e he => hexit e (hmem e he))
    refine ⟨if r.length = 1 then r.head? else none, ?_, ?_⟩
    · simp only [getTrueExit, hr]
    · intro b hb
      split at hb
      · exact hmem b (hsub b (List.mem_of_mem_head? hb))
      · cases hb
  · intro alsoLoop tempExit hlt
    have hs := exitWalk_isSome blocks exitBlocks alsoLoop n hsucc (n + 1) [tempExit] [] []
      (Or.inr ⟨tempExit, rfl, List.not_mem_nil _, hlt⟩) List.nodup_nil
      (fun x hx => absurd hx (List.not_mem_nil _)) (by simp)
    cases hw : exitWalk blocks exitBlocks alsoLoop (n + 1) [tempExit] [] [] with
    | none => rw [hw] at hs; cases hs
    | some res =>
      obtain ⟨valid, reachable, visited⟩ := res
      exact ⟨valid, reachable, visited, rfl,
        exitWalk_visits_nodup blocks exitBlocks alsoLoop (n + 1) [tempExit] [] valid reachable
          visited (Or.inr ⟨tempExit, rfl, List.not_mem_nil _⟩) List.nodup_nil hw⟩
  · intro exits alsoLoop exits1 alsoLoop1 h
    rcases (exitsRound_shrinks _ _ _ _ _ _ _ _ _ _ h).2.2 rfl with h1 | h1
    · cases h1
    · exact h1

theorem C18_getTrueExit_terminates_witness :
    (∀ b, b < 6 → ∀ s ∈ (twoExitBlocks 3 4 b).succs, s < 6)
      ∧ (∀ e ∈ [1, 2], e < 6)
      ∧ ((∃ r, getTrueExit (twoExitBlocks 3 4) 6 [1, 2] = some r ∧ ∀ b, r = some b → b ∈ [1, 2])
        ∧ (∀ alsoLoop tempExit, tempExit < 6 → ∃ valid reachable visited,
            exitWalk (twoExitBlocks 3 4) [1, 2] alsoLoop (6 + 1) [tempExit] [] []
              = some (valid, reachable, visited) ∧ visited.Nodup)
        ∧ (∀ exits alsoLoop exits1 alsoLoop1,
            exitsRound (twoExitBlocks 3 4) [1, 2] 6 exits exits alsoLoop false
              = some (exits1, alsoLoop1, true) → exits1.length < exits.length)) :=
  ⟨by decide, by decide,
    C18_getTrueExit_terminates (twoExitBlocks 3 4) 6 [1, 2] (by decide) (by decide)⟩

end Loop2Cilk
